import Mathlib

/-!
A verification development of the SFR (streamflow-routing) dataset core
implemented in `sfrmaker/sfrdata.py`: a shallow embedding of the reach and
segment tables, the routing derivation (`set_outreaches`), the numbering
repair operations (`repair_outsegs`, `reset_reaches`, `reset_segments`),
the slope derivation (`get_slopes`), the cache-staleness logic
(`_routing_changed` and the derived-graph accessors) and the RIV
extraction (`to_riv`), together with theorems settling the specification's
claims about them.

Modelling conventions:
* machine floats are rationals (`ℚ`);
* a pandas data frame is a list of records, list order = row order;
* a Python dict is an association list where lookup returns the *last*
  binding of a key (`dget`), matching `dict(zip(ks, vs))` semantics where a
  later duplicate key overwrites an earlier one;
* raised Python exceptions are `Except Err` errors;
* `DataFrame.sort_values` is modelled by a stable insertion sort on the
  lexicographic sort key used at the call site.

Functions the repository imports from modules that are not part of the
provided source (`sfrmaker.routing.find_path`,
`sfrmaker.routing.renumber_segments`, `sfrmaker.checks.valid_rnos`,
`sfrmaker.checks.valid_nsegs`,
`sfrmaker.checks.rno_nseg_routing_consistent`) are modelled from the
specification text and carry a `Modelled from the spec` doc comment.
-/

/- Batteries marks the `Rat` arithmetic operations `@[irreducible]`;
making them semireducible again lets `decide`/`rfl` evaluate the model on
the concrete witness and counterexample inputs below. -/
attribute [local semireducible] Rat.mul Rat.inv Rat.add Rat.sub Rat.ofScientific

/-- Python exceptions that the modelled code can raise. -/
inductive Err where
  | keyError
  | valueError
  | assertionError
  | cycleError
  | routingError
  | attrError
deriving DecidableEq, Repr

/-- One row of `reach_data`.  Only the columns that the routing engine,
the slope derivation and the RIV extraction read or write are modelled;
the remaining columns (`k`, `i`, `j`, `strthick`, …) are payload that none
of the claims mention. -/
structure Reach where
  rno : Int
  node : Int
  iseg : Int
  ireach : Int
  rchlen : ℚ
  strtop : ℚ
  slope : ℚ
  outreach : Int
  outseg : Int
  lineId : Int
deriving DecidableEq, Repr

/-- One row of `segment_data` (per stress period). -/
structure Segment where
  per : Int
  nseg : Int
  outseg : Int
deriving DecidableEq, Repr

/-- The mutable state of an `SFRData` instance: the two tables plus the
lazy routing caches (`_segment_routing`, `_routing`, `_rno_routing`,
`_paths`, `_reach_paths`). -/
structure SFRState where
  reach_data : List Reach
  segment_data : List Segment
  segRoutingCache : Option (List (Int × Int)) := none
  routingCache : Option (List (Int × Int)) := none
  rnoRoutingCache : Option (List (Int × Int)) := none
  pathsCache : Option (List (Int × List Int)) := none
  reachPathsCache : Option (List (Int × List Int)) := none
deriving DecidableEq, Repr

/-! ### Python dict model -/

/-- Lookup in an association list with Python-dict semantics: the *last*
binding of a key wins, as in `dict(zip(ks, vs))` with duplicate keys. -/
def dget {α : Type} : List (Int × α) → Int → Option α
  | [], _ => none
  | p :: t, k =>
    match dget t k with
    | some v => some v
    | none => if p.1 = k then some p.2 else none

/-- The keys of a dict, each once, in first-occurrence order. -/
def dedupFirst (l : List Int) : List Int :=
  l.foldl (fun acc x => if x ∈ acc then acc else acc ++ [x]) []

/-- Python `d1 == d2` on dicts: extensional equality of the key → value
maps (insertion order is irrelevant). -/
def dictEquiv {α : Type} [DecidableEq α] (d1 d2 : List (Int × α)) : Bool :=
  (d1.all fun p => dget d2 p.1 == dget d1 p.1) &&
    (d2.all fun p => dget d1 p.1 == dget d2 p.1)

theorem dget_nil {α : Type} (k : Int) : dget ([] : List (Int × α)) k = none := rfl

theorem dget_cons {α : Type} (p : Int × α) (t : List (Int × α)) (k : Int) :
    dget (p :: t) k =
      match dget t k with
      | some v => some v
      | none => if p.1 = k then some p.2 else none := rfl

theorem dget_eq_none {α : Type} (l : List (Int × α)) (k : Int) :
    dget l k = none ↔ k ∉ l.map Prod.fst := by
  induction l with
  | nil => simp [dget]
  | cons p t ih =>
    rw [dget_cons]
    cases h : dget t k with
    | some v =>
      simp only [reduceCtorEq, false_iff]
      intro hk
      simp only [List.map_cons, List.mem_cons, not_or] at hk
      rw [ih.mpr hk.2] at h
      exact Option.noConfusion h
    | none =>
      have ht : k ∉ List.map Prod.fst t := ih.mp h
      by_cases hp : p.1 = k
      · simp [hp, ht]
      · have : ¬k = p.1 := fun hk => hp hk.symm
        simp [hp, ht, this]

theorem dget_isSome {α : Type} (l : List (Int × α)) (k : Int) :
    (dget l k).isSome ↔ k ∈ l.map Prod.fst := by
  constructor
  · intro h
    by_contra hk
    rw [(dget_eq_none l k).mpr hk] at h
    exact Bool.noConfusion h
  · intro h
    cases hd : dget l k with
    | some v => rfl
    | none => exact absurd ((dget_eq_none l k).mp hd) (fun hn => hn h)

theorem dget_mem {α : Type} {l : List (Int × α)} {k : Int} {v : α}
    (h : dget l k = some v) : (k, v) ∈ l := by
  induction l with
  | nil => simp [dget] at h
  | cons p t ih =>
    rw [dget_cons] at h
    cases ht : dget t k with
    | some w =>
      rw [ht] at h
      cases h
      exact List.mem_cons_of_mem _ (ih ht)
    | none =>
      rw [ht] at h
      by_cases hp : p.1 = k
      · simp only [hp, if_pos rfl] at h
        cases h
        exact List.mem_cons.mpr (Or.inl (by rw [← hp, Prod.mk.eta]))
      · simp [hp] at h

/-- On a list whose keys are distinct, `dget` agrees with first-match
lookup, so any binding present in the list is the value returned. -/
theorem dget_of_nodup {α : Type} {l : List (Int × α)} {k : Int} {v : α}
    (hnd : (l.map Prod.fst).Nodup) (hmem : (k, v) ∈ l) : dget l k = some v := by
  induction l with
  | nil => simp at hmem
  | cons p t ih =>
    simp only [List.map_cons, List.nodup_cons] at hnd
    rcases List.mem_cons.mp hmem with h | h
    · subst h
      rw [dget_cons]
      cases ht : dget t k with
      | some w =>
        exact absurd (List.mem_map_of_mem Prod.fst (dget_mem ht)) hnd.1
      | none => simp
    · rw [dget_cons, ih hnd.2 h]

theorem mem_dedupFirst_aux (l : List Int) (acc : List Int) (x : Int) :
    x ∈ l.foldl (fun acc x => if x ∈ acc then acc else acc ++ [x]) acc ↔
      x ∈ acc ∨ x ∈ l := by
  induction l generalizing acc with
  | nil => simp
  | cons a t ih =>
    simp only [List.foldl_cons]
    by_cases ha : a ∈ acc
    · rw [if_pos ha, ih]
      constructor
      · rintro (h | h)
        · exact Or.inl h
        · exact Or.inr (List.mem_cons_of_mem _ h)
      · rintro (h | h)
        · exact Or.inl h
        · rcases List.mem_cons.mp h with h | h
          · exact Or.inl (h ▸ ha)
          · exact Or.inr h
    · rw [if_neg ha, ih]
      simp only [List.mem_append, List.mem_singleton, List.mem_cons]
      tauto

theorem mem_dedupFirst (l : List Int) (x : Int) : x ∈ dedupFirst l ↔ x ∈ l := by
  rw [dedupFirst, mem_dedupFirst_aux]
  simp

theorem nodup_dedupFirst_aux (l : List Int) (acc : List Int) (h : acc.Nodup) :
    (l.foldl (fun acc x => if x ∈ acc then acc else acc ++ [x]) acc).Nodup := by
  induction l generalizing acc with
  | nil => exact h
  | cons a t ih =>
    simp only [List.foldl_cons]
    by_cases ha : a ∈ acc
    · rw [if_pos ha]; exact ih acc h
    · rw [if_neg ha]
      refine ih _ ?_
      simp [List.nodup_append, h, ha]

theorem nodup_dedupFirst (l : List Int) : (dedupFirst l).Nodup :=
  nodup_dedupFirst_aux l [] List.nodup_nil

/-! ### Sort keys

`sort_values(by=['iseg', 'ireach'])` and `sort_values(by=['per', 'nseg'])`
are the two lexicographic sorts the source performs. -/

/-- Lexicographic `(iseg, ireach)` order on reaches. -/
def reachLE (a b : Reach) : Prop :=
  a.iseg < b.iseg ∨ (a.iseg = b.iseg ∧ a.ireach ≤ b.ireach)

/-- Lexicographic `(per, nseg)` order on segment rows. -/
def segLE (a b : Segment) : Prop :=
  a.per < b.per ∨ (a.per = b.per ∧ a.nseg ≤ b.nseg)

instance : DecidableRel reachLE := fun a b =>
  inferInstanceAs (Decidable (a.iseg < b.iseg ∨ (a.iseg = b.iseg ∧ a.ireach ≤ b.ireach)))

instance : DecidableRel segLE := fun a b =>
  inferInstanceAs (Decidable (a.per < b.per ∨ (a.per = b.per ∧ a.nseg ≤ b.nseg)))

instance : IsTotal Reach reachLE :=
  ⟨fun a b => by unfold reachLE; omega⟩

instance : IsTrans Reach reachLE :=
  ⟨fun a b c hab hbc => by unfold reachLE at *; omega⟩

instance : IsTotal Segment segLE :=
  ⟨fun a b => by unfold segLE; omega⟩

instance : IsTrans Segment segLE :=
  ⟨fun a b c hab hbc => by unfold segLE at *; omega⟩

/-- `reach_data.sort_values(by=['iseg', 'ireach'], inplace=True)`. -/
def sortReaches (l : List Reach) : List Reach := l.insertionSort reachLE

/-- `segment_data.sort_values(by=['per', 'nseg'], inplace=True)`. -/
def sortSegments (l : List Segment) : List Segment := l.insertionSort segLE

theorem sortReaches_perm (l : List Reach) : (sortReaches l).Perm l :=
  List.perm_insertionSort reachLE l

theorem sortSegments_perm (l : List Segment) : (sortSegments l).Perm l :=
  List.perm_insertionSort segLE l

theorem sortReaches_sorted (l : List Reach) : List.Sorted reachLE (sortReaches l) :=
  List.sorted_insertionSort reachLE l

theorem sortSegments_sorted (l : List Segment) : List.Sorted segLE (sortSegments l) :=
  List.sorted_insertionSort segLE l

/-! ### Routing validators and graph utilities

These functions live in `sfrmaker/checks.py` and `sfrmaker/routing.py`,
which are not part of the provided source; they are modelled from the
specification (§4.1, §4.2). -/

/-- Modelled from the spec: `sfrmaker.checks.valid_rnos` is imported but its
source is not provided.  §4.2: "true iff values, interpreted as a set,
equal exactly `{1, …, len(values)}` (no duplicates, no gaps, regardless of
order)".  For a list of length `n`, containing every value of `1..n`
is equivalent to being exactly that set. -/
def valid_rnos (l : List Int) : Bool :=
  (List.range l.length).all fun k => l.contains ((k : Int) + 1)

/-- Modelled from the spec: `sfrmaker.checks.valid_nsegs` is imported but
its source is not provided.  §4.2: "true iff `nseg` is `1..N` dense; if
`increasing=True`, additionally require every `outseg` (excluding
sinks/lakes) to be strictly greater than its source `nseg`". -/
def valid_nsegs (nseg : List Int) (outseg : Option (List Int)) (increasing : Bool) : Bool :=
  valid_rnos nseg &&
    (!increasing ||
      (match outseg with
       | none => true
       | some os => (nseg.zip os).all fun p => decide (p.2 ≤ 0) || decide (p.1 < p.2)))

/-- Modelled from the spec: `sfrmaker.checks.rno_nseg_routing_consistent`
is imported but its source is not provided.  §4.2: "true iff, for every
reach that is the last reach of its segment, its `outreach` target equals
the first reach (`ireach == 1`) of the segment identified by that
segment's `outseg` (or `0`/lake if sink)".  A reach is last in its segment
when no reach of the same segment has a larger `ireach`. -/
def rno_nseg_routing_consistent (nseg outseg iseg ireach rno outreach : List Int) : Bool :=
  let rows := (iseg.zip ireach).zip (rno.zip outreach)
  let segmap := nseg.zip outseg
  rows.all fun q =>
    if rows.all (fun q2 => q2.1.1 != q.1.1 || decide (q2.1.2 ≤ q.1.2)) then
      match dget segmap q.1.1 with
      | some d =>
        if 0 < d then
          match (rows.find? fun q2 => q2.1.1 == d && q2.1.2 == 1).map (fun q2 => q2.2.1) with
          | some x => q.2.2 == x
          | none => q.2.2 == 0
        else q.2.2 == 0
      | none => q.2.2 == 0
    else true

/-- Modelled from the spec: `sfrmaker.routing.find_path` is imported but
its source is not provided.  §4.1: follow destinations from `start` until
reaching `0` (inclusive), failing with `CycleError` if an id is revisited;
an id with no outgoing entry is a malformed graph (`RoutingError`). -/
def find_path_aux (g : List (Int × Int)) : Nat → List Int → Int → Except Err (List Int)
  | 0, _, _ => .error .cycleError
  | fuel + 1, visited, x =>
    if x = 0 then .ok [0]
    else if visited.contains x then .error .cycleError
    else
      match dget g x with
      | none => .error .routingError
      | some y => do
        let p ← find_path_aux g fuel (x :: visited) y
        pure (x :: p)

/-- Modelled from the spec (see `find_path_aux`). -/
def find_path (g : List (Int × Int)) (start : Int) : Except Err (List Int) :=
  find_path_aux g (g.length + 1) [] start

/-- The total destination function of a routing dict (`0` for a missing
key; only applied to keys in practice). -/
def dstOf (g : List (Int × Int)) (x : Int) : Int := (dget g x).getD 0

/-- `s` has no unprocessed predecessor: no remaining id routes to `s`. -/
def noPredIn (g : List (Int × Int)) (rem : List Int) (s : Int) : Bool :=
  rem.all fun p => dstOf g p != s

/-- Kahn-style topological numbering: repeatedly take the first remaining
id that no remaining id routes to (preserving relative input order among
unconstrained ids) and give it the next number.  Returns `none` when no
such id exists (a true cycle among the remaining ids). -/
def topoAssign (g : List (Int × Int)) : Nat → Int → List Int → Option (List (Int × Int))
  | 0, _, rem => if rem.isEmpty then some [] else none
  | fuel + 1, nxt, rem =>
    if rem.isEmpty then some []
    else
      match rem.find? (noPredIn g rem) with
      | none => none
      | some s => (topoAssign g fuel (nxt + 1) (rem.erase s)).map (fun m => (s, nxt) :: m)

/-- Modelled from the spec: `sfrmaker.routing.renumber_segments` is
imported but its source is not provided.  §4.1: produce a mapping
old-id → new-id with new ids `1..N` dense, a segment's new id less than
its destination's new id unless the destination is `0` or negative
(topological ordering, ties preserving relative input order), failing
with `RoutingError` on a true cycle among strictly-positive ids.
Duplicate ids (multi-period tables) collapse to their first occurrence;
the destination of an id is its last paired destination (dict semantics). -/
def renumber_segments (nseg outseg : List Int) : Except Err (List (Int × Int)) :=
  let g := nseg.zip outseg
  let ids := dedupFirst nseg
  match topoAssign g ids.length 1 ids with
  | none => .error .routingError
  | some m => .ok m

/-- Application of a renumbering: nonpositive ids (outlet `0`, lake sinks)
are preserved, positive ids are looked up (`KeyError` when absent, as a
dict subscript). -/
def applyR (m : List (Int × Int)) (x : Int) : Option Int :=
  if x ≤ 0 then some x else dget m x

/-! ### Table-manager operations (`sfrmaker/sfrdata.py`) -/

/-- Rows of the stress-period-0 segment table,
`segment_data.groupby('per').get_group(0)` (row order preserved). -/
def period0 (sd : List Segment) : List Segment := sd.filter fun s => s.per == 0

/-- Number of reaches of segment `s` (one bin of `np.bincount(iseg)`). -/
def countIseg (rd : List Reach) (s : Int) : Nat := rd.countP fun r => r.iseg == s

/-- Largest `iseg` value (`np.bincount(iseg)` has bins `0..max`;
dropping bin 0 leaves keys `1..max`). -/
def maxIseg (rd : List Reach) : Int := rd.foldl (fun m r => max m r.iseg) 0

/-- The `reach_counts` dict of `reset_reaches`: value counts for keys
`1..max(iseg)` only; any other key is a `KeyError`. -/
def reachCounts (rd : List Reach) (s : Int) : Option Nat :=
  if 1 ≤ s ∧ s ≤ maxIseg rd then some (countIseg rd s) else none

/-- `list(range(1, k + 1))`. -/
def rangeTo (k : Nat) : List Int := (List.range k).map fun i => Int.ofNat i + 1

/-- `SFRData.reset_reaches`: sort by `(iseg, ireach)`, then rebuild the
`ireach` column as the concatenation, over the period-0 `nseg` values in
stored order, of `1..count(nseg)`.  The column assignment sits in a bare
`try/except`, so a length mismatch silently leaves `ireach` unchanged —
but the `reach_counts[s]` lookup happens *outside* the `try` and raises
`KeyError` for an `nseg` outside `1..max(iseg)`, and
`groupby('per').get_group(0)` raises `KeyError` when there is no
period-0 row. -/
def reset_reaches (st : SFRState) : Except Err SFRState :=
  let rd := sortReaches st.reach_data
  let sd0 := period0 st.segment_data
  if sd0.isEmpty then .error .keyError
  else if rd.any (fun r => decide (r.iseg < 0)) then .error .valueError
  else
    match (sd0.map fun s => s.nseg).mapM (fun s => (reachCounts rd s).map rangeTo) with
    | none => .error .keyError
    | some ranges =>
      let flat := ranges.flatten
      if flat.length = rd.length then
        .ok { st with reach_data := (rd.zip flat).map fun p => { p.1 with ireach := p.2 } }
      else
        .ok { st with reach_data := rd }

/-- `SFRData.repair_outsegs`: force every `outseg` that is neither a known
`nseg` value (any period) nor negative to `0`. -/
def repair_outsegs (st : SFRState) : SFRState :=
  let nsegs := st.segment_data.map fun s => s.nseg
  { st with
    segment_data := st.segment_data.map fun s =>
      if nsegs.contains s.outseg || decide (s.outseg < 0) then s
      else { s with outseg := 0 } }

/-- Index the rows of a list, starting at `i` (`DataFrame.index` after
`index = np.arange(len(df))`). -/
def withIdx {α : Type} : List α → Nat → List (Nat × α)
  | [], _ => []
  | a :: t, i => (i, a) :: withIdx t (i + 1)

/-- The `assert` of `reset_segments`: every period-0 row's `nseg` equals
its positional index + 1 in the sorted, reindexed segment table. -/
def segIndexAssert (sd : List Segment) : Bool :=
  (withIdx sd 0).all fun p => p.2.per != 0 || p.2.nseg == (p.1 : Int) + 1

/-- `SFRData.reset_segments`: renumber all segments via
`renumber_segments` over the full (all-period) `nseg`/`outseg` columns,
apply the mapping simultaneously to `segment_data.nseg`,
`segment_data.outseg`, `reach_data.iseg` and `reach_data.outseg`, sort
both tables and assert that period-0 `nseg` values now equal their
positional indices + 1.  (The real code mutates column by column; a
failed lookup mid-way is collapsed into a single error here.) -/
def reset_segments (st : SFRState) : Except Err SFRState := do
  let m ← renumber_segments (st.segment_data.map fun s => s.nseg)
    (st.segment_data.map fun s => s.outseg)
  let sd' ← st.segment_data.mapM fun s =>
    match applyR m s.nseg, applyR m s.outseg with
    | some a, some b => Except.ok ({ s with nseg := a, outseg := b } : Segment)
    | _, _ => Except.error Err.keyError
  let rd' ← st.reach_data.mapM fun r =>
    match applyR m r.iseg, applyR m r.outseg with
    | some a, some b => Except.ok ({ r with iseg := a, outseg := b } : Reach)
    | _, _ => Except.error Err.keyError
  let sds := sortSegments sd'
  if segIndexAssert sds then
    Except.ok { st with segment_data := sds, reach_data := sortReaches rd' }
  else Except.error Err.assertionError

/-- The segment routing graph rebuilt from the period-0 segment table:
`dict(zip(sd.nseg, sd.outseg))` plus every destination that is not a
source mapped to `0` (outlets and lakes). -/
def rebuildSegGraph (sd : List Segment) : List (Int × Int) :=
  let sd0 := period0 sd
  let g : List (Int × Int) := (sd0.map fun s => s.nseg).zip (sd0.map fun s => s.outseg)
  let outlets := (dedupFirst (g.map fun p => p.2)).filter fun v => !(g.map fun p => p.1).contains v
  g ++ outlets.map fun o => (o, 0)

/-- The reach routing graph rebuilt from the reach table:
`dict(zip(rd.rno, rd.outreach))` plus sink padding. -/
def rebuildRnoGraph (rd : List Reach) : List (Int × Int) :=
  let g : List (Int × Int) := (rd.map fun r => r.rno).zip (rd.map fun r => r.outreach)
  let outlets := (dedupFirst (g.map fun p => p.2)).filter fun v => !(g.map fun p => p.1).contains v
  g ++ outlets.map fun o => (o, 0)

/-- `SFRData._routing_changed`: rebuild the segment and reach routing
dicts from the current tables, compare them with the cached
`_segment_routing` / `_rno_routing` (a fresh dict never equals a `None`
cache), check cross-representation consistency, and return the
conjunction (in the source, `a & b & ~c`, which is extensionally the same
whether the operands are Python or NumPy booleans). -/
def _routing_changed (st : SFRState) : Except Err Bool :=
  let sd0 := period0 st.segment_data
  if sd0.isEmpty then .error .keyError
  else
    let segg : List (Int × Int) := (sd0.map fun s => s.nseg).zip (sd0.map fun s => s.outseg)
    let segChanged :=
      match st.segRoutingCache with
      | none => true
      | some d => !dictEquiv segg d
    let rg : List (Int × Int) :=
      (st.reach_data.map fun r => r.rno).zip (st.reach_data.map fun r => r.outreach)
    let reachChanged :=
      match st.rnoRoutingCache with
      | none => true
      | some d => !dictEquiv rg d
    let cons := rno_nseg_routing_consistent (sd0.map fun s => s.nseg)
      (sd0.map fun s => s.outseg) (st.reach_data.map fun r => r.iseg)
      (st.reach_data.map fun r => r.ireach) (st.reach_data.map fun r => r.rno)
      (st.reach_data.map fun r => r.outreach)
    .ok (segChanged && reachChanged && !cons)

/-- `SFRData.segment_routing` (property): rebuild when `_segment_routing`
is `None` (short-circuit) or `_routing_changed()`; the rebuilt graph is
stored in `_routing` — not `_segment_routing`, faithfully preserving the
source — and returned. -/
def segment_routing (st : SFRState) : Except Err ((List (Int × Int)) × SFRState) :=
  match st.segRoutingCache with
  | none =>
    if (period0 st.segment_data).isEmpty then .error .keyError
    else
      let g := rebuildSegGraph st.segment_data
      .ok (g, { st with routingCache := some g })
  | some _ => do
    let cond ← _routing_changed st
    if cond then
      if (period0 st.segment_data).isEmpty then .error .keyError
      else
        let g := rebuildSegGraph st.segment_data
        .ok (g, { st with routingCache := some g })
    else
      match st.routingCache with
      | some g => .ok (g, st)
      | none => .error .attrError

/-- Fresh sequential reach numbers, `np.arange(1, len(reach_data) + 1)`. -/
def assignRnos (rd : List Reach) : List Reach :=
  (withIdx rd 0).map fun p => { p.2 with rno := (p.1 : Int) + 1 }

/-- Outreach of a reach that closes its segment: period-0 routing gives
the next segment; positive destinations route to that segment's
`reach1IDs` entry, other destinations are outlets. -/
def lastOutreach (g r1 : List (Int × Int)) (r : Reach) : Except Err Int :=
  match dget g r.iseg with
  | none => .error .keyError
  | some nextseg =>
    if 0 < nextseg then
      match dget r1 nextseg with
      | none => .error .keyError
      | some x => .ok x
    else .ok 0

/-- The `for i in range(len(rd))` loop of `set_outreaches`: a reach that
is the last row, or whose successor starts a new segment (`ireach == 1`),
routes via the segment graph; any other reach routes to the next row's
`rno`. -/
def outreachLoop (g r1 : List (Int × Int)) : List Reach → Except Err (List Int)
  | [] => .ok []
  | [r] => do
    let o ← lastOutreach g r1 r
    pure [o]
  | r :: r' :: rest =>
    if r'.ireach = 1 then do
      let o ← lastOutreach g r1 r
      let os ← outreachLoop g r1 (r' :: rest)
      pure (o :: os)
    else do
      let os ← outreachLoop g r1 (r' :: rest)
      pure (r'.rno :: os)

/-- `SFRData.set_outreaches`: sort both tables, synthesize `rno` if not
valid, `reset_reaches`, `repair_outsegs`, then derive the `outreach`
column from period-0 segment routing and the `{segment → first reach}`
dict `reach1IDs` (built from the rows with `ireach == 1`). -/
def set_outreaches (st : SFRState) : Except Err SFRState := do
  let rd0 := sortReaches st.reach_data
  let sd0 := sortSegments st.segment_data
  let rd1 := if valid_rnos (rd0.map fun r => r.rno) then rd0 else assignRnos rd0
  let st2 ← reset_reaches { st with reach_data := rd1, segment_data := sd0 }
  let st3 := repair_outsegs st2
  let gs ← segment_routing st3
  let rd := gs.2.reach_data
  let ones := rd.filter fun r => r.ireach == 1
  let r1 : List (Int × Int) := (ones.map fun r => r.iseg).zip (ones.map fun r => r.rno)
  let out ← outreachLoop gs.1 r1 rd
  .ok { gs.2 with reach_data := (rd.zip out).map fun p => { p.1 with outreach := p.2 } }

/-- `rd.outreach.sum()`. -/
def sumOutreach (rd : List Reach) : Int := rd.foldl (fun a r => a + r.outreach) 0

/-- The two sequential clamps of `get_slopes`:
`slopes[slopes < min] = min` then `slopes[slopes > max] = max`. -/
def clampSlope (mn mx v : ℚ) : ℚ :=
  let v1 := if v < mn then mn else v
  if mx < v1 then mx else v1

/-- Pre-clamp slope of the reach numbered `v`:
`(elev[v] - dnelev[v]) / dist[v] if dnelev[v] != -9999 and dist[v] > 0
else default_slope`. -/
def rawSlope (defaultSlope : ℚ) (elev dist dnelev : List (Int × ℚ)) (v : Int) : ℚ :=
  match dget dnelev v, dget dist v, dget elev v with
  | some dn, some d, some e =>
    if dn ≠ -9999 ∧ 0 < d then (e - dn) / d else defaultSlope
  | _, _, _ => defaultSlope

/-- The `elev` dict of `get_slopes`: `dict(zip(rd.rno, rd.strtop))`. -/
def elevDict (rd : List Reach) : List (Int × ℚ) :=
  (rd.map fun r => r.rno).zip (rd.map fun r => r.strtop)

/-- The `dist` dict of `get_slopes`: `dict(zip(rd.rno, rd.rchlen))`. -/
def distDict (rd : List Reach) : List (Int × ℚ) :=
  (rd.map fun r => r.rno).zip (rd.map fun r => r.rchlen)

/-- The `dnelev` dict of `get_slopes`: per row, the downstream reach's
elevation looked up through `outreach`, or the sentinel `-9999` for
`outreach == 0`; a nonzero `outreach` absent from `elev` is a
`KeyError`. -/
def dnelevE (rd : List Reach) : Except Err (List (Int × ℚ)) :=
  rd.mapM fun r =>
    if r.outreach ≠ (0 : Int) then
      match dget (elevDict rd) r.outreach with
      | some e => Except.ok ((r.rno, e) : Int × ℚ)
      | none => Except.error Err.keyError
    else Except.ok ((r.rno, (-9999 : ℚ)) : Int × ℚ)

/-- `SFRData.get_slopes`: assert that some routing exists
(`outreach.sum() > 0`), build elevation/length dicts keyed by `rno`, a
downstream-elevation dict with sentinel `-9999` for outlets, compute
pre-clamp slopes and clamp them. -/
def get_slopes (defaultSlope minimumSlope maximumSlope : ℚ) (st : SFRState) :
    Except Err SFRState := do
  let rd := st.reach_data
  if sumOutreach rd ≤ 0 then .error .assertionError
  else do
    let dn ← dnelevE rd
    let raw := rd.map fun r => rawSlope defaultSlope (elevDict rd) (distDict rd) dn r.rno
    let slopes := raw.map (clampSlope minimumSlope maximumSlope)
    .ok { st with reach_data := (rd.zip slopes).map fun p => { p.1 with slope := p.2 } }

/-- `SFRData.rno_routing` (property): rebuild when `_rno_routing` is
`None` (short-circuit) or `_routing_changed()`; rebuilding first reruns
`set_outreaches`. -/
def rno_routing (st : SFRState) : Except Err ((List (Int × Int)) × SFRState) :=
  match st.rnoRoutingCache with
  | none => do
    let st' ← set_outreaches st
    let g := rebuildRnoGraph st'.reach_data
    .ok (g, { st' with rnoRoutingCache := some g })
  | some _ => do
    let cond ← _routing_changed st
    if cond then do
      let st' ← set_outreaches st
      let g := rebuildRnoGraph st'.reach_data
      .ok (g, { st' with rnoRoutingCache := some g })
    else
      match st.rnoRoutingCache with
      | some g => .ok (g, st)
      | none => .error .attrError

/-- `{key: find_path(graph, key) for key in graph.keys()}`. -/
def pathsFor (g : List (Int × Int)) : Except Err (List (Int × List Int)) :=
  (dedupFirst (g.map fun p => p.1)).mapM fun k => do
    let p ← find_path g k
    pure (k, p)

/-- `SFRData._set_paths`. -/
def _set_paths (st : SFRState) : Except Err SFRState := do
  let gs ← segment_routing st
  let ps ← pathsFor gs.1
  .ok { gs.2 with pathsCache := some ps }

/-- `SFRData._set_reach_paths`. -/
def _set_reach_paths (st : SFRState) : Except Err SFRState := do
  let gs ← rno_routing st
  let ps ← pathsFor gs.1
  .ok { gs.2 with reachPathsCache := some ps }

/-- `SFRData._reset_routing`. -/
def _reset_routing (st : SFRState) : Except Err SFRState := do
  let st1 ← reset_reaches st
  let st2 ← reset_segments st1
  let st3 := { st2 with segRoutingCache := none }
  let st4 ← _set_paths st3
  let st5 := { st4 with rnoRoutingCache := none }
  _set_reach_paths st5

/-- `SFRData.reach_paths` (property).  Faithful to the source: the guard
tests `_paths` but the value built and returned is `_reach_paths`; when
the guard passes but `_reach_paths` is `None`, Python would return `None`
and the caller's subscript raises, modelled as an error here. -/
def reach_paths (st : SFRState) : Except Err ((List (Int × List Int)) × SFRState) := do
  if st.pathsCache = none then do
    let st' ← _set_reach_paths st
    match st'.reachPathsCache with
    | some m => .ok (m, st')
    | none => .error .attrError
  else do
    let b ← _routing_changed st
    if b then do
      let st' ← _reset_routing st
      match st'.reachPathsCache with
      | some m => .ok (m, st')
      | none => .error .attrError
    else
      match st.reachPathsCache with
      | some m => .ok (m, st)
      | none => .error .attrError

/-- The reach-selection mask of `to_riv`: an all-`True` mask intersected
with each provided selector. -/
def rivMask (segments rnoSel line_ids : Option (List Int)) (r : Reach) : Bool :=
  (match segments with
   | none => true
   | some l => l.contains r.iseg) &&
  (match line_ids with
   | none => true
   | some l => l.contains r.lineId) &&
  (match rnoSel with
   | none => true
   | some l => l.contains r.rno)

/-- `SFRData.to_riv`, restricted to the effect on the SFR dataset itself.
The construction of the extracted RIV table (conductance consolidation,
stage assignment and the independent renumbering of the extracted copy)
only reads the local copy `df` and never touches the SFR state, so it is
omitted here.  Selection happens on the current table; the downstream
closure is accumulated through the `reach_paths` property (re-entered on
every loop iteration, as in the source, since `_set_reach_paths` never
fills the `_paths` slot the property's guard tests); with `drop_in_sfr`
(forced off when no selector is given) the rows of every model cell
containing a closure reach are removed, dangling `outreach`/`outseg`
values are zeroed, fully-consumed segments are dropped and the remainder
is renumbered by `_reset_routing`. -/
def to_riv (st : SFRState) (segments rnoSel line_ids : Option (List Int))
    (drop_in_sfr : Bool) : Except Err SFRState := do
  let drop :=
    if segments = none ∧ rnoSel = none ∧ line_ids = none then false else drop_in_sfr
  let reaches := (st.reach_data.filter (rivMask segments rnoSel line_ids)).map fun r => r.rno
  let cs ← reaches.foldlM
    (fun (acc : List Int × SFRState) x =>
      if acc.1.contains x then pure acc
      else do
        let rps ← reach_paths acc.2
        match dget rps.1 x with
        | none => Except.error Err.keyError
        | some p => pure (acc.1 ++ p.filter (fun y => !acc.1.contains y), rps.2))
    (([] : List Int), st)
  let closure := cs.1
  let st1 := cs.2
  if drop then do
    let rivnodes := (st1.reach_data.filter fun r => closure.contains r.rno).map fun r => r.node
    let keep := st1.reach_data.filter fun r => !rivnodes.contains r.node
    let keptRnos := keep.map fun r => r.rno
    let rd2 := keep.map fun r =>
      if !keptRnos.contains r.outreach then { r with outreach := 0 } else r
    let keptIsegs := rd2.map fun r => r.iseg
    let rivSegs := (st1.segment_data.map fun s => s.nseg).filter fun s => !keptIsegs.contains s
    let rd3 := rd2.map fun r =>
      if rivSegs.contains r.outseg then { r with outseg := 0 } else r
    let sd2 := st1.segment_data.filter fun s => !rivSegs.contains s.nseg
    let sd3 := sd2.map fun s =>
      if rivSegs.contains s.outseg then { s with outseg := 0 } else s
    _reset_routing { st1 with reach_data := rd3, segment_data := sd3 }
  else .ok st1

/-- `SFRData.__init__`, restricted to the routing pipeline: the table
template setup (`_setup_reach_data` / `_setup_segment_data` column
defaults, `isfropt0_to_1` value interpolation) is omitted except for the
final step of `_setup_segment_data`, which overwrites `reach_data.outseg`
from the segment table; then segment numbering is validated (and reset if
invalid), `set_outreaches` establishes reach routing and `get_slopes`
runs with its default arguments. -/
def mkSFRData (reach_data : List Reach) (segment_data : List Segment)
    (enforce_increasing_nsegs : Bool) : Except Err SFRState := do
  let segdict : List (Int × Int) :=
    (segment_data.map fun s => s.nseg).zip (segment_data.map fun s => s.outseg)
  let rd ← reach_data.mapM fun r =>
    match dget segdict r.iseg with
    | some o => Except.ok ({ r with outseg := o } : Reach)
    | none => Except.error Err.keyError
  let st0 : SFRState := { reach_data := rd, segment_data := segment_data }
  let sd0 := period0 segment_data
  let st1 ←
    if valid_nsegs (sd0.map fun s => s.nseg) (some (sd0.map fun s => s.outseg))
        enforce_increasing_nsegs then
      pure st0
    else reset_segments st0
  let st2 ← set_outreaches st1
  get_slopes (1 / 1000) (1 / 10000) 1 st2

/-! ### Concrete tables used by witnesses and counterexamples -/

/-- A reach row with routing fields `rno/iseg/ireach/node/outreach` and
slope inputs `strtop/rchlen`; remaining fields fixed. -/
def mkR (rno iseg ireach node outreach : Int) (strtop rchlen : ℚ) : Reach :=
  { rno := rno, node := node, iseg := iseg, ireach := ireach, rchlen := rchlen,
    strtop := strtop, slope := 0, outreach := outreach, outseg := 0, lineId := rno }

/-- A period-0 segment row. -/
def mkS (nseg outseg : Int) : Segment := { per := 0, nseg := nseg, outseg := outseg }

/-! ### Claim C6 -/

/-- Membership form of invariant 3 for one `outseg` value. -/
def OutsegValid (nsegs : List Int) (o : Int) : Prop := o = 0 ∨ o < 0 ∨ o ∈ nsegs

/-- Claim C6: `repair_outsegs()` never fails (it is a total function on
states), leaves the reach table alone and rewrites only `outseg` values:
afterwards every `outseg` is `0`, negative, or one of the table's `nseg`
values, and every `outseg` that already satisfied that is unchanged
(rows keep their `per` and `nseg`, in order). -/
theorem repair_outsegs_establishes_inv3 (st : SFRState) :
    (repair_outsegs st).reach_data = st.reach_data ∧
    List.Forall₂
      (fun s s' : Segment =>
        s'.per = s.per ∧ s'.nseg = s.nseg ∧
        OutsegValid (st.segment_data.map fun x => x.nseg) s'.outseg ∧
        (OutsegValid (st.segment_data.map fun x => x.nseg) s.outseg →
          s'.outseg = s.outseg))
      st.segment_data (repair_outsegs st).segment_data := by
  constructor
  · rfl
  · unfold repair_outsegs
    simp only
    rw [List.forall₂_map_right_iff]
    rw [List.forall₂_same]
    intro s hs
    by_cases hc :
        ((st.segment_data.map fun x => x.nseg).contains s.outseg || decide (s.outseg < 0)) = true
    · rw [if_pos hc]
      rcases Bool.or_eq_true_iff.mp hc with h | h
      · have hm : s.outseg ∈ st.segment_data.map fun x => x.nseg := by
          simpa using h
        exact ⟨rfl, rfl, Or.inr (Or.inr hm), fun _ => rfl⟩
      · have hneg : s.outseg < 0 := of_decide_eq_true h
        exact ⟨rfl, rfl, Or.inr (Or.inl hneg), fun _ => rfl⟩
    · rw [if_neg hc]
      refine ⟨rfl, rfl, Or.inl rfl, fun hv => ?_⟩
      rcases hv with h | h | h
      · simp [h]
      · exact absurd (Bool.or_eq_true_iff.mpr (Or.inr (decide_eq_true h))) hc
      · exact absurd (Bool.or_eq_true_iff.mpr (Or.inl (by simpa using h))) hc

/-! ### Claim C10 -/

/-- A valid single-reach, single-segment network: the only reach is an
outlet. -/
def soloReach : Reach := mkR 1 1 1 1 0 1 1

/-- The segment table of the single-reach network. -/
def soloSeg : Segment := mkS 1 0

/-- Claim C10: `get_slopes` raises `AssertionError` whenever the sum of
the `outreach` column is not positive — in particular for any all-outlet
network — and since `__init__` runs `set_outreaches` and then
`get_slopes` unconditionally, the valid single-reach network cannot be
constructed at all. -/
theorem get_slopes_outletless_assert (d mn mx : ℚ) (st : SFRState)
    (h : sumOutreach st.reach_data ≤ 0) :
    get_slopes d mn mx st = .error .assertionError ∧
    mkSFRData [soloReach] [soloSeg] true = .error .assertionError := by
  constructor
  · unfold get_slopes
    rw [if_pos h]
  · rfl

/-- The state of the single-reach network (as the constructor leaves it
just before `get_slopes`). -/
def soloState : SFRState :=
  { reach_data := [soloReach], segment_data := [soloSeg] }

/-- Witness for C10: the single-reach network has outreach sum `0 ≤ 0`,
and the theorem applies there. -/
theorem get_slopes_outletless_assert_witness :
    sumOutreach soloState.reach_data ≤ 0 ∧
      get_slopes 1 0 1 soloState = .error .assertionError ∧
      mkSFRData [soloReach] [soloSeg] true = .error .assertionError := by
  refine ⟨by decide, ?_⟩
  exact get_slopes_outletless_assert 1 0 1 soloState (by decide)

/-! ### Claim C3 -/

/-- The segment mapping `_routing_changed` rebuilds:
`dict(zip(sd0.nseg, sd0.outseg))` as raw bindings. -/
def freshSegDict (st : SFRState) : List (Int × Int) :=
  ((period0 st.segment_data).map fun s => s.nseg).zip
    ((period0 st.segment_data).map fun s => s.outseg)

/-- The reach mapping `_routing_changed` rebuilds:
`dict(zip(rd.rno, rd.outreach))` as raw bindings. -/
def freshRnoDict (st : SFRState) : List (Int × Int) :=
  (st.reach_data.map fun r => r.rno).zip (st.reach_data.map fun r => r.outreach)

/-- The cross-representation consistency check, applied to the current
tables as `_routing_changed` does. -/
def consistentB (st : SFRState) : Bool :=
  rno_nseg_routing_consistent ((period0 st.segment_data).map fun s => s.nseg)
    ((period0 st.segment_data).map fun s => s.outseg)
    (st.reach_data.map fun r => r.iseg) (st.reach_data.map fun r => r.ireach)
    (st.reach_data.map fun r => r.rno) (st.reach_data.map fun r => r.outreach)

/-- The freshly rebuilt segment mapping differs from the cached
`_segment_routing` (a fresh dict always differs from a `None` cache). -/
def SegCacheDiffers (st : SFRState) : Prop :=
  match st.segRoutingCache with
  | none => True
  | some d => dictEquiv (freshSegDict st) d = false

/-- The freshly rebuilt reach mapping differs from the cached
`_rno_routing`. -/
def RnoCacheDiffers (st : SFRState) : Prop :=
  match st.rnoRoutingCache with
  | none => True
  | some d => dictEquiv (freshRnoDict st) d = false

/-- Claim C3: on any state whose segment table has a period-0 group,
`_routing_changed()` returns `True` exactly when the freshly rebuilt
segment mapping differs from the cached one AND the freshly rebuilt
reach mapping differs from the cached one AND the two routing
representations fail `rno_nseg_routing_consistent`; in every other
state it returns `False`. -/
theorem routing_changed_is_conjunctive (st : SFRState)
    (h : ¬ (period0 st.segment_data).isEmpty = true) :
    ∃ b : Bool, _routing_changed st = .ok b ∧
      (b = true ↔ SegCacheDiffers st ∧ RnoCacheDiffers st ∧ consistentB st = false) := by
  unfold _routing_changed
  rw [if_neg h]
  refine ⟨_, rfl, ?_⟩
  rw [Bool.and_eq_true, Bool.and_eq_true]
  unfold SegCacheDiffers RnoCacheDiffers freshSegDict freshRnoDict consistentB
  constructor
  · rintro ⟨⟨hs, hr⟩, hc⟩
    refine ⟨?_, ?_, ?_⟩
    · cases hcache : st.segRoutingCache with
      | none => trivial
      | some d =>
        rw [hcache] at hs
        simpa using hs
    · cases hcache : st.rnoRoutingCache with
      | none => trivial
      | some d =>
        rw [hcache] at hr
        simpa using hr
    · simpa using hc
  · rintro ⟨hs, hr, hc⟩
    refine ⟨⟨?_, ?_⟩, ?_⟩
    · cases hcache : st.segRoutingCache with
      | none => rfl
      | some d =>
        rw [hcache] at hs
        simpa using hs
    · cases hcache : st.rnoRoutingCache with
      | none => rfl
      | some d =>
        rw [hcache] at hr
        simpa using hr
    · simpa using hc

/-- Witness for C3: a one-segment, one-reach state with empty caches has
a period-0 group; `_routing_changed` reports a change there (both caches
are `None` and the representations are inconsistent because `outreach`
was never derived). -/
theorem routing_changed_is_conjunctive_witness :
    ¬ (period0 soloState.segment_data).isEmpty = true ∧
      ∃ b : Bool, _routing_changed soloState = .ok b ∧
        (b = true ↔
          SegCacheDiffers soloState ∧ RnoCacheDiffers soloState ∧
            consistentB soloState = false) :=
  ⟨by decide, routing_changed_is_conjunctive soloState (by decide)⟩

/-! ### General helper lemmas -/

theorem except_bind_error {α β : Type} (e : Err) (g : α → Except Err β) :
    (Except.error e >>= g) = (Except.error e : Except Err β) := rfl

theorem except_bind_ok_arg {α β : Type} (a : α) (g : α → Except Err β) :
    (Except.ok a >>= g) = g a := rfl

/-- A successful `mapM` over `Except` relates input and output pointwise. -/
theorem mapM_ok_forall2 {α β : Type} {f : α → Except Err β} :
    ∀ {l : List α} {l' : List β}, l.mapM f = .ok l' →
      List.Forall₂ (fun a b => f a = .ok b) l l' := by
  intro l
  induction l with
  | nil =>
    intro l' h
    rw [List.mapM_nil] at h
    cases h
    exact List.Forall₂.nil
  | cons a t ih =>
    intro l' h
    rw [List.mapM_cons] at h
    cases hfa : f a with
    | error e =>
      rw [hfa, except_bind_error] at h
      exact Except.noConfusion h
    | ok b =>
      rw [hfa, except_bind_ok_arg] at h
      cases hft : t.mapM f with
      | error e =>
        rw [hft, except_bind_error] at h
        exact Except.noConfusion h
      | ok bs =>
        rw [hft, except_bind_ok_arg] at h
        cases h
        exact List.Forall₂.cons hfa (ih hft)

theorem forall2_mem_left {α β : Type} {R : α → β → Prop} :
    ∀ {l1 : List α} {l2 : List β}, List.Forall₂ R l1 l2 → ∀ {a : α}, a ∈ l1 →
      ∃ b ∈ l2, R a b := by
  intro l1 l2 h
  induction h with
  | nil => intro a ha; cases ha
  | cons hr _ ih =>
    intro a ha
    rcases List.mem_cons.mp ha with h1 | h1
    · subst h1
      exact ⟨_, List.mem_cons_self _ _, hr⟩
    · rcases ih h1 with ⟨b, hb, hrb⟩
      exact ⟨b, List.mem_cons_of_mem _ hb, hrb⟩

theorem zip_self_map {α β : Type} (l : List α) (f : α → β) :
    l.zip (l.map f) = l.map fun a => (a, f a) := by
  induction l with
  | nil => rfl
  | cons a t ih => simp [ih]

/-! ### `get_slopes` characterization (claims C4 and C5) -/

theorem clampSlope_bounds (mn mx v : ℚ) (h : mn ≤ mx) :
    mn ≤ clampSlope mn mx v ∧ clampSlope mn mx v ≤ mx := by
  simp only [clampSlope]
  split_ifs <;> constructor <;> linarith

theorem clampSlope_id (mn mx v : ℚ) (h1 : mn ≤ v) (h2 : v ≤ mx) :
    clampSlope mn mx v = v := by
  simp only [clampSlope]
  split_ifs <;> linarith

/-- One row's entry of the `dnelev` dict: key is the row's `rno`; outlet
rows carry the sentinel, routed rows carry the downstream elevation. -/
theorem dnelev_row_spec {rd : List Reach} {r : Reach} {p : Int × ℚ}
    (h : (if r.outreach ≠ (0 : Int) then
        match dget (elevDict rd) r.outreach with
        | some e => Except.ok ((r.rno, e) : Int × ℚ)
        | none => Except.error Err.keyError
      else Except.ok ((r.rno, (-9999 : ℚ)) : Int × ℚ)) = .ok p) :
    p.1 = r.rno ∧
      (r.outreach = 0 → p.2 = -9999) ∧
      (r.outreach ≠ 0 → dget (elevDict rd) r.outreach = some p.2) := by
  by_cases hz : r.outreach = (0 : Int)
  · rw [if_neg (by simpa using hz)] at h
    cases h
    exact ⟨rfl, fun _ => rfl, fun hne => absurd hz hne⟩
  · rw [if_pos hz] at h
    cases he : dget (elevDict rd) r.outreach with
    | none => rw [he] at h; exact Except.noConfusion h
    | some e =>
      rw [he] at h
      injection h with h'
      subst h'
      exact ⟨rfl, fun h0 => absurd h0 hz, fun _ => rfl⟩

theorem forall2_key_map {R : Reach → (Int × ℚ) → Prop}
    (hkey : ∀ a b, R a b → b.1 = a.rno) :
    ∀ {l1 : List Reach} {l2 : List (Int × ℚ)}, List.Forall₂ R l1 l2 →
      l2.map Prod.fst = l1.map fun r => r.rno := by
  intro l1 l2 h
  induction h with
  | nil => rfl
  | cons hr _ ih =>
    simp only [List.map_cons]
    rw [hkey _ _ hr, ih]

/-- The keys of a successful `dnelev` build are exactly the `rno` column. -/
theorem dnelevE_keys {rd : List Reach} {dn : List (Int × ℚ)}
    (h : dnelevE rd = .ok dn) : dn.map Prod.fst = rd.map fun r => r.rno :=
  forall2_key_map (fun _ _ hr => (dnelev_row_spec hr).1) (mapM_ok_forall2 h)

/-- What `get_slopes` writes into one row: the clamp of the row's
pre-clamp slope, all other fields untouched. -/
def slopeRow (d mn mx : ℚ) (rd : List Reach) (dn : List (Int × ℚ)) (r : Reach) : Reach :=
  { r with slope := clampSlope mn mx (rawSlope d (elevDict rd) (distDict rd) dn r.rno) }

/-- Successful `get_slopes` rewrites exactly the `slope` column: each row
gets the clamp of its pre-clamp slope, everything else is unchanged. -/
theorem get_slopes_ok_char {d mn mx : ℚ} {st st' : SFRState}
    (hok : get_slopes d mn mx st = .ok st') :
    ∃ dn, dnelevE st.reach_data = .ok dn ∧
      st'.reach_data = st.reach_data.map (slopeRow d mn mx st.reach_data dn) ∧
      st'.segment_data = st.segment_data := by
  unfold get_slopes at hok
  by_cases hs : sumOutreach st.reach_data ≤ 0
  · rw [if_pos hs] at hok
    exact Except.noConfusion hok
  · rw [if_neg hs] at hok
    cases hdn : dnelevE st.reach_data with
    | error e =>
      rw [hdn, except_bind_error] at hok
      exact Except.noConfusion hok
    | ok dn =>
      rw [hdn, except_bind_ok_arg] at hok
      refine ⟨dn, rfl, ?_⟩
      cases hok
      constructor
      · simp only [List.map_map]
        rw [zip_self_map, List.map_map]
        rfl
      · rfl

/-! ### Claim C4 -/

/-- A two-reach chain (`1 → 2 → outlet`) with flat elevations. -/
def stC4cex : SFRState :=
  { reach_data := [mkR 1 1 1 1 2 0 1, mkR 2 1 2 2 0 0 1],
    segment_data := [mkS 1 0] }

/-- The result of `get_slopes(default_slope=1/2, minimum_slope=1,
maximum_slope=10)` on `stC4cex`. -/
def stC4cexOut : SFRState :=
  match get_slopes (1 / 2) 1 10 stC4cex with
  | .ok s => s
  | .error _ => stC4cex

/-- Counterexample to claim C4 as stated (quantifying over *every* choice
of arguments): with `default_slope = 1/2` below `minimum_slope = 1`,
`get_slopes` completes and the outlet reach (`outreach == 0`) receives
the clamped value `1`, not `default_slope`. -/
theorem get_slopes_default_clamped_cex :
    get_slopes (1 / 2) 1 10 stC4cex = .ok stC4cexOut ∧
      (stC4cexOut.reach_data.getLast?.map fun r => (r.outreach, r.slope)) =
        some (0, 1) ∧
      (1 : ℚ) ≠ 1 / 2 := by
  refine ⟨rfl, by decide, by norm_num⟩

/-- Claim C4, amended: when the reach numbers are unique and
`minimum_slope ≤ default_slope ≤ maximum_slope`, every slope written by a
completing `get_slopes` lies in `[minimum_slope, maximum_slope]` and
every outlet reach (`outreach == 0`) gets exactly `default_slope`. -/
theorem get_slopes_clamping_law (d mn mx : ℚ) (st st' : SFRState)
    (hnd : (st.reach_data.map fun r => r.rno).Nodup)
    (h1 : mn ≤ d) (h2 : d ≤ mx)
    (hok : get_slopes d mn mx st = .ok st') :
    ∀ r' ∈ st'.reach_data,
      (mn ≤ r'.slope ∧ r'.slope ≤ mx) ∧ (r'.outreach = 0 → r'.slope = d) := by
  rcases get_slopes_ok_char hok with ⟨dn, hdn, hrd, _⟩
  intro r' hr'
  rw [hrd] at hr'
  rcases List.mem_map.mp hr' with ⟨r, hr, heq⟩
  subst heq
  constructor
  · simpa [slopeRow] using clampSlope_bounds mn mx
      (rawSlope d (elevDict st.reach_data) (distDict st.reach_data) dn r.rno)
      (le_trans h1 h2)
  · intro h0
    have h0' : r.outreach = 0 := by simpa [slopeRow] using h0
    have hfa := mapM_ok_forall2 hdn
    rcases forall2_mem_left hfa hr with ⟨p, hp, hpr⟩
    have hspec := dnelev_row_spec hpr
    have hnd' : (dn.map Prod.fst).Nodup := by
      rw [dnelevE_keys hdn]
      exact hnd
    have hmem : (r.rno, p.2) ∈ dn := by
      have hpe : p = (r.rno, p.2) := by
        rw [← hspec.1]
      rw [← hpe]
      exact hp
    have hdget : dget dn r.rno = some p.2 := dget_of_nodup hnd' hmem
    have hval : p.2 = -9999 := hspec.2.1 h0'
    have hraw : rawSlope d (elevDict st.reach_data) (distDict st.reach_data) dn r.rno = d := by
      unfold rawSlope
      rw [hdget, hval]
      cases dget (distDict st.reach_data) r.rno with
      | none => rfl
      | some dd =>
        cases dget (elevDict st.reach_data) r.rno with
        | none => rfl
        | some e => simp
    show clampSlope mn mx _ = d
    rw [hraw]
    exact clampSlope_id mn mx d h1 h2

/-- A two-reach chain with a 0.1 gradient for the C4 witness. -/
def stC4w : SFRState :=
  { reach_data := [mkR 1 1 1 1 2 100 100, mkR 2 1 2 2 0 90 100],
    segment_data := [mkS 1 0] }

/-- `get_slopes` output on `stC4w` with the default arguments. -/
def stC4wOut : SFRState :=
  match get_slopes (1 / 1000) (1 / 10000) 1 stC4w with
  | .ok s => s
  | .error _ => stC4w

/-- The outlet row of `stC4wOut`. -/
def rC4w : Reach := { mkR 2 1 2 2 0 90 100 with slope := 1 / 1000 }

/-- Witness for the amended claim C4, at the outlet reach of a concrete
two-reach chain. -/
theorem get_slopes_clamping_law_witness :
    (stC4w.reach_data.map fun r => r.rno).Nodup ∧
      rC4w ∈ stC4wOut.reach_data ∧
      ((1 / 10000 : ℚ) ≤ rC4w.slope ∧ rC4w.slope ≤ 1) ∧
      (rC4w.outreach = 0 → rC4w.slope = 1 / 1000) := by
  refine ⟨by decide, by decide, ?_⟩
  exact get_slopes_clamping_law (1 / 1000) (1 / 10000) 1 stC4w stC4wOut
    (by decide) (by norm_num) (by norm_num) rfl rC4w (by decide)

/-! ### Claim C5 -/

theorem zip_map_two {α β γ : Type} (f : α → β) (g : α → γ) (l : List α) :
    (l.map f).zip (l.map g) = l.map fun a => (f a, g a) := List.zip_map' f g l

theorem dget_elevDict {rd : List Reach} (hnd : (rd.map fun r => r.rno).Nodup)
    {r : Reach} (hr : r ∈ rd) : dget (elevDict rd) r.rno = some r.strtop := by
  apply dget_of_nodup
  · unfold elevDict
    rw [zip_map_two, List.map_map]
    exact hnd
  · unfold elevDict
    rw [zip_map_two]
    exact List.mem_map_of_mem _ hr

theorem dget_distDict {rd : List Reach} (hnd : (rd.map fun r => r.rno).Nodup)
    {r : Reach} (hr : r ∈ rd) : dget (distDict rd) r.rno = some r.rchlen := by
  apply dget_of_nodup
  · unfold distDict
    rw [zip_map_two, List.map_map]
    exact hnd
  · unfold distDict
    rw [zip_map_two]
    exact List.mem_map_of_mem _ hr

/-- The `dnelev` entry of a row, under unique reach numbers. -/
theorem dget_dnelev {rd : List Reach} {dn : List (Int × ℚ)}
    (hnd : (rd.map fun r => r.rno).Nodup) (hdn : dnelevE rd = .ok dn)
    {r : Reach} (hr : r ∈ rd) :
    ∃ v : ℚ, dget dn r.rno = some v ∧ (r.outreach = 0 → v = -9999) ∧
      (r.outreach ≠ 0 → dget (elevDict rd) r.outreach = some v) := by
  rcases forall2_mem_left (mapM_ok_forall2 hdn) hr with ⟨p, hp, hpr⟩
  have hspec := dnelev_row_spec hpr
  have hnd' : (dn.map Prod.fst).Nodup := by
    rw [dnelevE_keys hdn]
    exact hnd
  have hmem : (r.rno, p.2) ∈ dn := by
    have hpe : p = (r.rno, p.2) := by rw [← hspec.1]
    rw [← hpe]
    exact hp
  exact ⟨p.2, dget_of_nodup hnd' hmem, hspec.2.1, hspec.2.2⟩

/-- Claim C5, amended: under unique reach numbers, for every completing
run of `get_slopes` the pre-clamp slope of a reach with `outreach == 0`
or nonpositive `rchlen` is `default_slope`; for a reach with
`outreach != 0` and positive `rchlen` whose downstream reach's `strtop`
is not the sentinel value `-9999`, it is
`(own strtop - downstream strtop) / rchlen`; and every pre-clamp value is
either `default_slope` or a quotient with strictly positive divisor (so
no division by a nonpositive length is ever evaluated and no NaN or
infinity is stored); the stored slope column is the clamp of these
values. -/
theorem get_slopes_preclamp_formula (d mn mx : ℚ) (st st' : SFRState)
    (hnd : (st.reach_data.map fun r => r.rno).Nodup)
    (hok : get_slopes d mn mx st = .ok st') :
    ∃ dn, dnelevE st.reach_data = .ok dn ∧
      st'.reach_data = st.reach_data.map (slopeRow d mn mx st.reach_data dn) ∧
      ∀ r ∈ st.reach_data,
        ((r.outreach = 0 ∨ r.rchlen ≤ 0) →
          rawSlope d (elevDict st.reach_data) (distDict st.reach_data) dn r.rno = d) ∧
        (∀ rdown ∈ st.reach_data, rdown.rno = r.outreach → r.outreach ≠ 0 →
          rdown.strtop ≠ -9999 → 0 < r.rchlen →
          rawSlope d (elevDict st.reach_data) (distDict st.reach_data) dn r.rno =
            (r.strtop - rdown.strtop) / r.rchlen) ∧
        (rawSlope d (elevDict st.reach_data) (distDict st.reach_data) dn r.rno = d ∨
          ∃ e : ℚ, 0 < r.rchlen ∧
            rawSlope d (elevDict st.reach_data) (distDict st.reach_data) dn r.rno =
              (r.strtop - e) / r.rchlen) := by
  rcases get_slopes_ok_char hok with ⟨dn, hdn, hrd, _⟩
  refine ⟨dn, hdn, hrd, ?_⟩
  intro r hr
  rcases dget_dnelev hnd hdn hr with ⟨v, hv, hv0, hvne⟩
  have helev := dget_elevDict hnd hr
  have hdist := dget_distDict hnd hr
  have hraw : rawSlope d (elevDict st.reach_data) (distDict st.reach_data) dn r.rno =
      if v ≠ -9999 ∧ 0 < r.rchlen then (r.strtop - v) / r.rchlen else d := by
    unfold rawSlope
    rw [hv, hdist, helev]
  refine ⟨?_, ?_, ?_⟩
  · rintro (h0 | hlen)
    · rw [hraw, if_neg]
      rintro ⟨hne, _⟩
      exact hne (hv0 h0)
    · rw [hraw, if_neg]
      rintro ⟨_, hpos⟩
      linarith
  · intro rdown hrdown hrno hne hsent hpos
    have hd : dget (elevDict st.reach_data) r.outreach = some rdown.strtop := by
      rw [← hrno]
      exact dget_elevDict hnd hrdown
    have hveq : v = rdown.strtop := by
      have := (hvne hne).symm.trans hd
      exact (Option.some.inj this)
    rw [hraw, hveq, if_pos ⟨hsent, hpos⟩]
  · rw [hraw]
    by_cases hc : v ≠ -9999 ∧ 0 < r.rchlen
    · right
      exact ⟨v, hc.2, by rw [if_pos hc]⟩
    · left
      rw [if_neg hc]

/-- A two-reach chain whose downstream reach sits exactly at the sentinel
elevation `-9999`. -/
def stC5cex : SFRState :=
  { reach_data := [mkR 1 1 1 1 2 1 1, mkR 2 1 2 2 0 (-9999) 1],
    segment_data := [mkS 1 0] }

/-- `get_slopes(1/2, 0, 20000)` output on `stC5cex`. -/
def stC5cexOut : SFRState :=
  match get_slopes (1 / 2) 0 20000 stC5cex with
  | .ok s => s
  | .error _ => stC5cex

/-- Counterexample to claim C5 as stated: reach 1 has `outreach = 2 ≠ 0`
and `rchlen = 1 > 0`, so the claim demands the pre-clamp slope
`(1 - (-9999)) / 1 = 10000`; but the downstream elevation collides with
the sentinel `-9999`, the sentinel test routes the reach to the
outlet branch, and both the pre-clamp slope and the stored slope are
`default_slope = 1/2` instead. -/
theorem get_slopes_sentinel_cex :
    dnelevE stC5cex.reach_data = .ok [(1, -9999), (2, -9999)] ∧
      rawSlope (1 / 2) (elevDict stC5cex.reach_data) (distDict stC5cex.reach_data)
        [(1, -9999), (2, -9999)] 1 = 1 / 2 ∧
      get_slopes (1 / 2) 0 20000 stC5cex = .ok stC5cexOut ∧
      (stC5cexOut.reach_data.head?.map fun r => r.slope) = some (1 / 2) ∧
      ((1 : ℚ) - (-9999)) / 1 = 10000 ∧ (1 / 2 : ℚ) ≠ 10000 := by
  exact ⟨rfl, by decide, rfl, by decide, by decide, by decide⟩

/-- Witness for the amended claim C5: on the concrete two-reach chain
`stC4w`, the pre-clamp slope of reach 1 is the elevation difference over
the reach length, `(100 - 90) / 100`. -/
theorem get_slopes_preclamp_formula_witness :
    dnelevE stC4w.reach_data = .ok [(1, 90), (2, -9999)] ∧
      rawSlope (1 / 1000) (elevDict stC4w.reach_data) (distDict stC4w.reach_data)
        [(1, 90), (2, -9999)] 1 = (100 - 90) / 100 := by
  have hcomp : dnelevE stC4w.reach_data = .ok [(1, 90), (2, -9999)] := rfl
  refine ⟨hcomp, ?_⟩
  rcases get_slopes_preclamp_formula (1 / 1000) (1 / 10000) 1 stC4w stC4wOut
    (by decide) rfl with ⟨dn, hdn, _, hall⟩
  have hdneq : dn = [(1, 90), (2, -9999)] := by
    rw [hdn] at hcomp
    exact Except.ok.inj hcomp
  subst hdneq
  exact (hall (mkR 1 1 1 1 2 100 100) (by decide)).2.1
    (mkR 2 1 2 2 0 90 100) (by decide) (by decide) (by decide) (by decide) (by decide)

/-! ### Claim C1 -/

/-- Write an `outreach` column: `reach_data['outreach'] = outreach`. -/
def applyOut (rows : List Reach) (out : List Int) : List Reach :=
  (rows.zip out).map fun p => { p.1 with outreach := p.2 }

/-- The period-0 `outseg` of segment `s` (dict semantics: the last
period-0 row with that `nseg`), or `0` for a segment that is not in the
period-0 table (an outlet/lake padding entry of the routing graph). -/
def segOutseg0 (sd : List Segment) (s : Int) : Int :=
  match dget (((period0 sd).map fun x => x.nseg).zip ((period0 sd).map fun x => x.outseg)) s with
  | some d => d
  | none => 0

/-- The first reach (`ireach == 1`) of segment `s`, in row order. -/
def firstReach1 (rd : List Reach) (s : Int) : Option Reach :=
  rd.find? fun x => x.iseg == s && x.ireach == 1

/-- Routing invariant 4 for a reach `r` that is the last reach of its
segment: `outreach` is the `rno` of the first reach of the destination
segment named by the period-0 `outseg`, or `0` when that destination is
not positive. -/
def inv4Last (st : SFRState) (r : Reach) : Prop :=
  if 0 < segOutseg0 st.segment_data r.iseg then
    ∃ fr, firstReach1 st.reach_data (segOutseg0 st.segment_data r.iseg) = some fr ∧
      r.outreach = fr.rno
  else r.outreach = 0

/-- Routing invariant 4 for a reach `r` followed by `rest`: the last row
overall and a row whose successor starts a new segment use the
last-reach rule, every other row routes to the next row's `rno`. -/
def inv4At (st : SFRState) (r : Reach) (rest : List Reach) : Prop :=
  match rest with
  | [] => inv4Last st r
  | r' :: _ => if r'.ireach = 1 then inv4Last st r else r.outreach = r'.rno

/-- Routing invariant 4 for a whole state. -/
def Inv4 (st : SFRState) : Prop :=
  ∀ (l : List Reach) (r : Reach) (rest : List Reach),
    st.reach_data = l ++ r :: rest → inv4At st r rest

theorem dget_append {α : Type} (a b : List (Int × α)) (k : Int) :
    dget (a ++ b) k =
      match dget b k with
      | some v => some v
      | none => dget a k := by
  induction a with
  | nil =>
    simp only [List.nil_append]
    cases dget b k <;> rfl
  | cons p t ih =>
    simp only [List.cons_append]
    rw [dget_cons, ih, dget_cons]
    cases dget b k with
    | some v => rfl
    | none => cases dget t k <;> rfl

theorem dget_eq_none_of_keys {α : Type} {l : List (Int × α)} {k : Int}
    (h : ∀ p ∈ l, p.1 ≠ k) : dget l k = none := by
  induction l with
  | nil => rfl
  | cons p t ih =>
    rw [dget_cons, ih (fun q hq => h q (List.mem_cons_of_mem _ hq))]
    rw [if_neg (h p (List.mem_cons_self _ _))]

/-- A successful lookup in the padded segment routing graph agrees with
the period-0 `outseg` interpretation `segOutseg0`: bindings of the inner
dict give the table value, padding entries give `0` for ids absent from
the period-0 table. -/
theorem rebuildSegGraph_lookup {sd : List Segment} {s d : Int}
    (h : dget (rebuildSegGraph sd) s = some d) : segOutseg0 sd s = d := by
  unfold rebuildSegGraph at h
  rw [dget_append] at h
  unfold segOutseg0
  cases hp : dget ((((dedupFirst
      (((((period0 sd).map fun s => s.nseg).zip ((period0 sd).map fun s => s.outseg)).map
        fun p => p.2))).filter
      fun v => !((((period0 sd).map fun s => s.nseg).zip
        ((period0 sd).map fun s => s.outseg)).map fun p => p.1).contains v)).map
      fun o => ((o, 0) : Int × Int)) s with
  | some v =>
    rw [hp] at h
    cases h
    have hmem := dget_mem hp
    rcases List.mem_map.mp hmem with ⟨o, ho, heq⟩
    have hs : o = s := congrArg Prod.fst heq
    have hv : (0 : Int) = d := congrArg Prod.snd heq
    subst hs
    rcases List.mem_filter.mp ho with ⟨_, hnc⟩
    have hnotin : o ∉ ((((period0 sd).map fun s => s.nseg).zip
        ((period0 sd).map fun s => s.outseg)).map fun p => p.1) := by
      simpa using hnc
    have hnone : dget (((period0 sd).map fun s => s.nseg).zip
        ((period0 sd).map fun s => s.outseg)) o = none := by
      apply dget_eq_none_of_keys
      intro p hpmem hpk
      exact hnotin (hpk ▸ List.mem_map_of_mem (fun p => p.1) hpmem)
    rw [hnone]
    exact hv
  | none =>
    rw [hp] at h
    have h' : dget (((period0 sd).map fun x => x.nseg).zip
        ((period0 sd).map fun x => x.outseg)) s = some d := h
    rw [h']

theorem applyOut_cons (r : Reach) (rows : List Reach) (o : Int) (out : List Int) :
    applyOut (r :: rows) (o :: out) = { r with outreach := o } :: applyOut rows out := rfl

theorem outreachLoop_len (g r1 : List (Int × Int)) :
    ∀ (rows : List Reach) (out : List Int), outreachLoop g r1 rows = .ok out →
      out.length = rows.length := by
  intro rows
  induction rows with
  | nil =>
    intro out h
    simp only [outreachLoop] at h
    cases h
    rfl
  | cons r tail ih =>
    intro out h
    cases tail with
    | nil =>
      simp only [outreachLoop] at h
      cases hlo : lastOutreach g r1 r with
      | error e => rw [hlo, except_bind_error] at h; exact Except.noConfusion h
      | ok o =>
        rw [hlo, except_bind_ok_arg] at h
        cases h
        rfl
    | cons r' rest =>
      simp only [outreachLoop] at h
      by_cases hir : r'.ireach = 1
      · rw [if_pos hir] at h
        cases hlo : lastOutreach g r1 r with
        | error e => rw [hlo, except_bind_error] at h; exact Except.noConfusion h
        | ok o =>
          rw [hlo, except_bind_ok_arg] at h
          cases hrec : outreachLoop g r1 (r' :: rest) with
          | error e => rw [hrec, except_bind_error] at h; exact Except.noConfusion h
          | ok os =>
            rw [hrec, except_bind_ok_arg] at h
            cases h
            simp [ih os hrec]
      · rw [if_neg hir] at h
        cases hrec : outreachLoop g r1 (r' :: rest) with
        | error e => rw [hrec, except_bind_error] at h; exact Except.noConfusion h
        | ok os =>
          rw [hrec, except_bind_ok_arg] at h
          cases h
          simp [ih os hrec]

/-- Specification of the `set_outreaches` loop, stated on the table with
the computed column written back: the last row, and every row whose
successor opens a new segment, carry their `lastOutreach` value; every
other row carries the next row's `rno`. -/
theorem outreachLoop_inv4 (g r1 : List (Int × Int)) :
    ∀ (rows : List Reach) (out : List Int), outreachLoop g r1 rows = .ok out →
      ∀ (l : List Reach) (r : Reach) (rest : List Reach),
        applyOut rows out = l ++ r :: rest →
        (match rest with
         | [] => lastOutreach g r1 r = .ok r.outreach
         | r' :: _ =>
           if r'.ireach = 1 then lastOutreach g r1 r = .ok r.outreach
           else r.outreach = r'.rno) := by
  intro rows
  induction rows with
  | nil =>
    intro out h l r rest happ
    simp only [outreachLoop] at h
    cases h
    simp [applyOut] at happ
  | cons r0 tail ih =>
    intro out h l r rest happ
    cases tail with
    | nil =>
      simp only [outreachLoop] at h
      cases hlo : lastOutreach g r1 r0 with
      | error e => rw [hlo, except_bind_error] at h; exact Except.noConfusion h
      | ok o =>
        rw [hlo, except_bind_ok_arg] at h
        cases h
        rw [show applyOut [r0] [o] = [{ r0 with outreach := o }] from rfl] at happ
        cases l with
        | nil =>
          simp only [List.nil_append] at happ
          cases happ
          exact hlo
        | cons x l' =>
          simp only [List.cons_append] at happ
          injection happ with h1 h2
          simp at h2
    | cons r1' rest0 =>
      simp only [outreachLoop] at h
      by_cases hir : r1'.ireach = 1
      · rw [if_pos hir] at h
        cases hlo : lastOutreach g r1 r0 with
        | error e => rw [hlo, except_bind_error] at h; exact Except.noConfusion h
        | ok o =>
          rw [hlo, except_bind_ok_arg] at h
          cases hrec : outreachLoop g r1 (r1' :: rest0) with
          | error e => rw [hrec, except_bind_error] at h; exact Except.noConfusion h
          | ok os =>
            rw [hrec, except_bind_ok_arg] at h
            cases h
            have hoslen := outreachLoop_len g r1 _ _ hrec
            cases os with
            | nil => simp at hoslen
            | cons o1 os' =>
              rw [applyOut_cons] at happ
              cases l with
              | nil =>
                simp only [List.nil_append] at happ
                injection happ with h1 h2
                subst h1
                rw [applyOut_cons] at h2
                rw [← h2]
                simp only
                rw [if_pos hir]
                exact hlo
              | cons x l' =>
                simp only [List.cons_append] at happ
                injection happ with h1 h2
                exact ih (o1 :: os') hrec l' r rest h2
      · rw [if_neg hir] at h
        cases hrec : outreachLoop g r1 (r1' :: rest0) with
        | error e => rw [hrec, except_bind_error] at h; exact Except.noConfusion h
        | ok os =>
          rw [hrec, except_bind_ok_arg] at h
          cases h
          have hoslen := outreachLoop_len g r1 _ _ hrec
          cases os with
          | nil => simp at hoslen
          | cons o1 os' =>
            rw [applyOut_cons] at happ
            cases l with
            | nil =>
              simp only [List.nil_append] at happ
              injection happ with h1 h2
              subst h1
              rw [applyOut_cons] at h2
              rw [← h2]
              simp [hir]
            | cons x l' =>
              simp only [List.cons_append] at happ
              injection happ with h1 h2
              exact ih (o1 :: os') hrec l' r rest h2

theorem countP_le_one_find {α : Type} (q : α → Bool) :
    ∀ (l : List α), l.countP q ≤ 1 → ∀ {a : α}, a ∈ l → q a = true →
      l.find? q = some a := by
  intro l
  induction l with
  | nil => intro _ a ha _; cases ha
  | cons h t ih =>
    intro hcount a ha hqa
    rw [List.countP_cons] at hcount
    cases hqh : q h with
    | true =>
      rw [List.find?_cons_of_pos _ hqh]
      rcases List.mem_cons.mp ha with h1 | h1
      · rw [h1]
      · exfalso
        have h2 : 0 < t.countP q := List.countP_pos_iff.mpr ⟨a, h1, hqa⟩
        rw [hqh] at hcount
        simp only [eq_self_iff_true, if_true] at hcount
        omega
    | false =>
      rw [List.find?_cons_of_neg _ (by simp [hqh])]
      rcases List.mem_cons.mp ha with h1 | h1
      · rw [h1] at hqa
        rw [hqa] at hqh
        exact Bool.noConfusion hqh
      · rw [hqh] at hcount
        simp only [eq_self_iff_true, if_false, Bool.false_eq_true] at hcount
        exact ih (by omega) h1 hqa

theorem applyOut_countP (q : Reach → Bool) (hq : ∀ a o, q { a with outreach := o } = q a) :
    ∀ (rows : List Reach) (out : List Int), out.length = rows.length →
      (applyOut rows out).countP q = rows.countP q := by
  intro rows
  induction rows with
  | nil => intro out _; cases out <;> rfl
  | cons r t ih =>
    intro out hlen
    cases out with
    | nil => simp at hlen
    | cons o os =>
      rw [applyOut_cons, List.countP_cons, List.countP_cons, hq,
        ih os (by simpa using hlen)]

theorem applyOut_find (q : Reach → Bool) (hq : ∀ a o, q { a with outreach := o } = q a) :
    ∀ (rows : List Reach) (out : List Int), out.length = rows.length →
      ∀ {r0 : Reach}, rows.find? q = some r0 →
        ∃ o : Int, (applyOut rows out).find? q = some { r0 with outreach := o } := by
  intro rows
  induction rows with
  | nil => intro out _ r0 h; simp at h
  | cons r t ih =>
    intro out hlen r0 h
    cases out with
    | nil => simp at hlen
    | cons o os =>
      rw [applyOut_cons]
      cases hqr : q r with
      | true =>
        rw [List.find?_cons_of_pos _ hqr] at h
        cases h
        exact ⟨o, List.find?_cons_of_pos _ (by rw [hq]; exact hqr)⟩
      | false =>
        rw [List.find?_cons_of_neg _ (by simp [hqr])] at h
        rcases ih os (by simpa using hlen) h with ⟨o', ho'⟩
        refine ⟨o', ?_⟩
        rw [List.find?_cons_of_neg _ (by simp [hq, hqr])]
        exact ho'

theorem repair_outsegs_fields (st : SFRState) :
    (repair_outsegs st).reach_data = st.reach_data ∧
      (repair_outsegs st).segRoutingCache = st.segRoutingCache ∧
      (repair_outsegs st).routingCache = st.routingCache ∧
      (repair_outsegs st).rnoRoutingCache = st.rnoRoutingCache ∧
      (repair_outsegs st).pathsCache = st.pathsCache ∧
      (repair_outsegs st).reachPathsCache = st.reachPathsCache :=
  ⟨rfl, rfl, rfl, rfl, rfl, rfl⟩

theorem reset_reaches_ok_fields {st st2 : SFRState} (h : reset_reaches st = .ok st2) :
    st2.segment_data = st.segment_data ∧
      st2.segRoutingCache = st.segRoutingCache ∧
      st2.routingCache = st.routingCache ∧
      st2.rnoRoutingCache = st.rnoRoutingCache ∧
      st2.pathsCache = st.pathsCache ∧
      st2.reachPathsCache = st.reachPathsCache := by
  simp only [reset_reaches] at h
  split at h
  · exact Except.noConfusion h
  · split at h
    · exact Except.noConfusion h
    · split at h
      · exact Except.noConfusion h
      · split at h
        · cases h
          exact ⟨rfl, rfl, rfl, rfl, rfl, rfl⟩
        · cases h
          exact ⟨rfl, rfl, rfl, rfl, rfl, rfl⟩

/-- `segment_routing` with an empty `_segment_routing` cache (the only
reachable configuration) always rebuilds from the current table. -/
theorem segment_routing_none {st : SFRState} (h : st.segRoutingCache = none)
    {g : List (Int × Int)} {st' : SFRState}
    (hok : segment_routing st = .ok (g, st')) :
    g = rebuildSegGraph st.segment_data ∧ st'.reach_data = st.reach_data ∧
      st'.segment_data = st.segment_data ∧ st'.segRoutingCache = none ∧
      st'.routingCache = some g ∧ st'.rnoRoutingCache = st.rnoRoutingCache ∧
      st'.pathsCache = st.pathsCache ∧ st'.reachPathsCache = st.reachPathsCache := by
  unfold segment_routing at hok
  rw [h] at hok
  have hok' : (if (period0 st.segment_data).isEmpty then
        (.error .keyError : Except Err ((List (Int × Int)) × SFRState))
      else
        .ok (rebuildSegGraph st.segment_data,
          { reach_data := st.reach_data, segment_data := st.segment_data,
            segRoutingCache := none,
            routingCache := some (rebuildSegGraph st.segment_data),
            rnoRoutingCache := st.rnoRoutingCache, pathsCache := st.pathsCache,
            reachPathsCache := st.reachPathsCache })) = .ok (g, st') := hok
  split at hok'
  · exact Except.noConfusion hok'
  · injection hok' with hpair
    injection hpair with h1 h2
    subst h1
    subst h2
    exact ⟨rfl, rfl, rfl, rfl, rfl, rfl, rfl, rfl⟩

theorem except_bind_ok {α β : Type} {x : Except Err α} {f : α → Except Err β} {b : β}
    (h : (x >>= f) = .ok b) : ∃ a, x = .ok a ∧ f a = .ok b := by
  cases x with
  | error e => rw [except_bind_error] at h; exact Except.noConfusion h
  | ok a => exact ⟨a, rfl, h⟩

/-- The last-reach branch of the loop realizes invariant 4's last-reach
rule: the `reach1IDs` hit is a first reach of the destination segment,
and under unique first reaches it is *the* first one. -/
theorem lastOutreach_to_inv4Last (sd : List Segment) (rd : List Reach) (out : List Int)
    (hlen : out.length = rd.length)
    (huniq : ∀ s : Int,
      (applyOut rd out).countP (fun x => x.iseg == s && x.ireach == 1) ≤ 1)
    (r : Reach)
    (M : lastOutreach (rebuildSegGraph sd)
      (((rd.filter fun x => x.ireach == 1).map fun x => x.iseg).zip
        ((rd.filter fun x => x.ireach == 1).map fun x => x.rno)) r = .ok r.outreach) :
    if 0 < segOutseg0 sd r.iseg then
      ∃ fr, firstReach1 (applyOut rd out) (segOutseg0 sd r.iseg) = some fr ∧
        r.outreach = fr.rno
    else r.outreach = 0 := by
  unfold lastOutreach at M
  cases hg : dget (rebuildSegGraph sd) r.iseg with
  | none => rw [hg] at M; exact Except.noConfusion M
  | some nextseg =>
    rw [hg] at M
    have hseg : segOutseg0 sd r.iseg = nextseg := rebuildSegGraph_lookup hg
    have M' : (if 0 < nextseg then
        match dget (((rd.filter fun x => x.ireach == 1).map fun x => x.iseg).zip
            ((rd.filter fun x => x.ireach == 1).map fun x => x.rno)) nextseg with
        | none => (Except.error Err.keyError : Except Err Int)
        | some x => Except.ok x
      else Except.ok 0) = .ok r.outreach := M
    by_cases hpos : 0 < nextseg
    · rw [if_pos hpos] at M'
      cases hr1 : dget (((rd.filter fun x => x.ireach == 1).map fun x => x.iseg).zip
          ((rd.filter fun x => x.ireach == 1).map fun x => x.rno)) nextseg with
      | none => rw [hr1] at M'; exact Except.noConfusion M'
      | some x =>
        rw [hr1] at M'
        injection M' with hx
        rw [hseg, if_pos hpos]
        have hmem := dget_mem hr1
        rw [zip_map_two] at hmem
        rcases List.mem_map.mp hmem with ⟨rr, hrr, heq⟩
        have hrr2 := List.mem_filter.mp hrr
        have hiseg : rr.iseg = nextseg := congrArg Prod.fst heq
        have hrno : rr.rno = x := congrArg Prod.snd heq
        have hq : (fun xx : Reach => xx.iseg == nextseg && xx.ireach == 1) rr = true := by
          simp only [Bool.and_eq_true, beq_iff_eq]
          exact ⟨hiseg, by simpa using hrr2.2⟩
        have hcount : rd.countP (fun xx => xx.iseg == nextseg && xx.ireach == 1) ≤ 1 := by
          rw [← applyOut_countP (fun xx => xx.iseg == nextseg && xx.ireach == 1)
            (fun a o => rfl) rd out hlen]
          exact huniq nextseg
        have hfind : rd.find? (fun xx => xx.iseg == nextseg && xx.ireach == 1) = some rr :=
          countP_le_one_find _ rd hcount hrr2.1 hq
        rcases applyOut_find (fun xx => xx.iseg == nextseg && xx.ireach == 1)
          (fun a o => rfl) rd out hlen hfind with ⟨o, ho⟩
        refine ⟨{ rr with outreach := o }, ho, ?_⟩
        show r.outreach = rr.rno
        rw [hrno, hx]
    · rw [if_neg hpos] at M'
      injection M' with h0
      rw [hseg, if_neg hpos]
      exact h0.symm

/-- Claim C1: on any state whose `_segment_routing` cache is unset (the
only reachable configuration, see claim C9), if `set_outreaches()`
completes, then — provided every segment of the resulting table has at
most one reach with `ireach == 1`, which makes "the first reach" of a
segment well defined — every reach of the resulting table satisfies
routing invariant 4. -/
theorem set_outreaches_establishes_inv4 (st st' : SFRState)
    (hcache : st.segRoutingCache = none)
    (hok : set_outreaches st = .ok st')
    (huniq : ∀ s : Int,
      st'.reach_data.countP (fun x => x.iseg == s && x.ireach == 1) ≤ 1) :
    Inv4 st' := by
  unfold set_outreaches at hok
  rcases except_bind_ok hok with ⟨st2, hst2, hok2⟩
  rcases except_bind_ok hok2 with ⟨gs, hgs, hok3⟩
  rcases except_bind_ok hok3 with ⟨out, hout, hfin⟩
  obtain ⟨g, stg⟩ := gs
  injection hfin with hfin'
  have hsrc : (repair_outsegs st2).segRoutingCache = none := by
    have h1 := (reset_reaches_ok_fields hst2).2.1
    have h2 : (repair_outsegs st2).segRoutingCache = st2.segRoutingCache := rfl
    rw [h2, h1]
    exact hcache
  have hsr := segment_routing_none hsrc hgs
  have hg : g = rebuildSegGraph stg.segment_data := by
    rw [hsr.2.2.1]
    exact hsr.1
  have hrd' : st'.reach_data = applyOut stg.reach_data out := by
    rw [← hfin']
    try exact rfl
  have hsd' : st'.segment_data = stg.segment_data := by
    rw [← hfin']
    try exact rfl
  have hlen : out.length = stg.reach_data.length := outreachLoop_len _ _ _ _ hout
  have huniq2 : ∀ s : Int,
      (applyOut stg.reach_data out).countP (fun x => x.iseg == s && x.ireach == 1) ≤ 1 := by
    intro s
    rw [← hrd']
    exact huniq s
  intro l r rest hsplit
  rw [hrd'] at hsplit
  have M := outreachLoop_inv4 g _ stg.reach_data out hout l r rest hsplit
  cases rest with
  | nil =>
    show inv4Last st' r
    have Ml : lastOutreach g
        (((stg.reach_data.filter fun x => x.ireach == 1).map fun x => x.iseg).zip
          ((stg.reach_data.filter fun x => x.ireach == 1).map fun x => x.rno)) r =
        .ok r.outreach := M
    unfold inv4Last
    rw [hsd', hrd']
    rw [hg] at Ml
    exact lastOutreach_to_inv4Last stg.segment_data stg.reach_data out hlen huniq2 r Ml
  | cons r' rest' =>
    show if r'.ireach = 1 then inv4Last st' r else r.outreach = r'.rno
    have M2 : (if r'.ireach = 1 then
        lastOutreach g
          (((stg.reach_data.filter fun x => x.ireach == 1).map fun x => x.iseg).zip
            ((stg.reach_data.filter fun x => x.ireach == 1).map fun x => x.rno)) r =
          .ok r.outreach
      else r.outreach = r'.rno) := M
    by_cases hir : r'.ireach = 1
    · rw [if_pos hir]
      rw [if_pos hir] at M2
      unfold inv4Last
      rw [hsd', hrd']
      rw [hg] at M2
      exact lastOutreach_to_inv4Last stg.segment_data stg.reach_data out hlen huniq2 r M2
    · rw [if_neg hir]
      rw [if_neg hir] at M2
      exact M2

/-- A two-segment network for the C1 witness: segment 1 (reaches 1, 2)
routes to segment 2 (reach 3), an outlet. -/
def stC1w : SFRState :=
  { reach_data := [mkR 1 1 1 1 0 0 1, mkR 2 1 2 2 0 0 1, mkR 3 2 1 3 0 0 1],
    segment_data := [mkS 1 2, mkS 2 0] }

/-- `set_outreaches` output on `stC1w`. -/
def stC1wOut : SFRState :=
  match set_outreaches stC1w with
  | .ok s => s
  | .error _ => stC1w

/-- Witness for C1: on the two-segment network, `set_outreaches`
completes with `outreach = [2, 3, 0]`, and the theorem yields invariant 4
for reach 2 (the last reach of segment 1): its outreach is the `rno` of
the first reach of segment 2. -/
theorem set_outreaches_establishes_inv4_witness :
    stC1w.segRoutingCache = none ∧
      set_outreaches stC1w = .ok stC1wOut ∧
      stC1wOut.reach_data = [mkR 1 1 1 1 2 0 1, mkR 2 1 2 2 3 0 1, mkR 3 2 1 3 0 0 1] ∧
      firstReach1 stC1wOut.reach_data 2 = some (mkR 3 2 1 3 0 0 1) ∧
      (mkR 2 1 2 2 3 0 1).outreach = (mkR 3 2 1 3 0 0 1).rno := by
  have hlist : stC1wOut.reach_data =
      [mkR 1 1 1 1 2 0 1, mkR 2 1 2 2 3 0 1, mkR 3 2 1 3 0 0 1] := by decide
  have huniqW : ∀ s : Int,
      stC1wOut.reach_data.countP (fun x => x.iseg == s && x.ireach == 1) ≤ 1 := by
    intro s
    rw [hlist]
    by_cases h1 : s = (1 : Int)
    · subst h1; decide
    · by_cases h2 : s = (2 : Int)
      · subst h2; decide
      · have e1 : ((mkR 1 1 1 1 2 0 1).iseg == s) = false :=
          beq_eq_false_iff_ne.mpr fun h => h1 (by simpa [mkR] using h.symm)
        have e3 : ((mkR 3 2 1 3 0 0 1).iseg == s) = false :=
          beq_eq_false_iff_ne.mpr fun h => h2 (by simpa [mkR] using h.symm)
        simp [List.countP_cons, e1, e3]
        split <;> omega
  have hInv := set_outreaches_establishes_inv4 stC1w stC1wOut rfl rfl huniqW
  refine ⟨rfl, rfl, hlist, by rw [hlist]; decide, ?_⟩
  have h2 := hInv [mkR 1 1 1 1 2 0 1] (mkR 2 1 2 2 3 0 1) [mkR 3 2 1 3 0 0 1] hlist
  have h3 : (if (mkR 3 2 1 3 0 0 1).ireach = 1 then inv4Last stC1wOut (mkR 2 1 2 2 3 0 1)
      else (mkR 2 1 2 2 3 0 1).outreach = (mkR 3 2 1 3 0 0 1).rno) := h2
  rw [if_pos (by decide)] at h3
  unfold inv4Last at h3
  rw [if_pos (by decide)] at h3
  rcases h3 with ⟨fr, hfr, hout⟩
  have hfr2 : fr = mkR 3 2 1 3 0 0 1 := by
    have hcomp : firstReach1 stC1wOut.reach_data
        (segOutseg0 stC1wOut.segment_data (mkR 2 1 2 2 3 0 1).iseg) =
        some (mkR 3 2 1 3 0 0 1) := by decide
    rw [hcomp] at hfr
    exact (Option.some.inj hfr).symm
  rw [hout, hfr2]

/-! ### Claim C7 -/

theorem rangeTo_length (k : Nat) : (rangeTo k).length = k := by
  unfold rangeTo
  rw [List.length_map, List.length_range]

theorem option_bind_some {α β : Type} (a : α) (g : α → Option β) :
    (some a >>= g) = g a := rfl

theorem option_mapM_some {α β : Type} (f : α → Option β) :
    ∀ (l : List α), (∀ x ∈ l, (f x).isSome) →
      ∃ res, l.mapM f = some res ∧ List.Forall₂ (fun a b => f a = some b) l res := by
  intro l
  induction l with
  | nil => intro _; exact ⟨[], rfl, List.Forall₂.nil⟩
  | cons a t ih =>
    intro h
    have ha := h a (List.mem_cons_self _ _)
    cases hfa : f a with
    | none => rw [hfa] at ha; exact Bool.noConfusion ha
    | some b =>
      rcases ih (fun x hx => h x (List.mem_cons_of_mem _ hx)) with ⟨res, hres, hfa2⟩
      refine ⟨b :: res, ?_, List.Forall₂.cons hfa hfa2⟩
      rw [List.mapM_cons, hfa, option_bind_some, hres, option_bind_some]
      rfl

theorem forall2_map_eq {α β γ : Type} {R : α → β → Prop} (f : α → γ) (g : β → γ)
    (h : ∀ a b, R a b → g b = f a) :
    ∀ {l1 : List α} {l2 : List β}, List.Forall₂ R l1 l2 → l2.map g = l1.map f := by
  intro l1 l2 hf
  induction hf with
  | nil => rfl
  | cons hr _ ih =>
    simp only [List.map_cons]
    rw [h _ _ hr, ih]

/-- Reach-by-reach data for the C7 counterexample: two reaches of
segment 1, while the period-0 segment table also lists a segment 2. -/
def stC7cex : SFRState :=
  { reach_data := [mkR 1 1 1 1 0 0 1, mkR 2 1 2 2 0 0 1],
    segment_data := [mkS 1 2, mkS 2 0] }

/-- Counterexample to claim C7 as stated: the per-segment reach counts
implied by `reach_data.iseg` (segment 2 has no reaches at all, so the
`reach_counts` dict built from `np.bincount` has no key `2`) are
inconsistent with the period-0 segment table, and `reset_reaches` raises
`KeyError` — the `reach_counts[s]` lookup sits *outside* the
`try/except` — instead of silently leaving `ireach` unchanged. -/
theorem reset_reaches_keyerror_cex :
    reset_reaches stC7cex = .error .keyError ∧
      countIseg stC7cex.reach_data 2 = 0 ∧
      ((period0 stC7cex.segment_data).map fun sg => sg.nseg) = [1, 2] :=
  ⟨rfl, rfl, rfl⟩

/-- Mismatch case of `reset_reaches` (used by the claim C7 theorem):
when every `reach_counts` lookup succeeds but the total implied reach
count differs from the table length, the column assignment's
`ValueError` is swallowed by the bare `except` and the operation
completes with every row — in particular the `ireach` column —
unchanged (a silent no-op, up to sorting). -/
theorem reset_reaches_mismatch_noop (st : SFRState)
    (h0 : (period0 st.segment_data).isEmpty = false)
    (hneg : ((sortReaches st.reach_data).any fun r => decide (r.iseg < 0)) = false)
    (hkeys : ∀ sg ∈ period0 st.segment_data,
      (reachCounts (sortReaches st.reach_data) sg.nseg).isSome)
    (hmis : (((period0 st.segment_data).map fun sg =>
        countIseg (sortReaches st.reach_data) sg.nseg).sum) ≠
      (sortReaches st.reach_data).length) :
    reset_reaches st = .ok { st with reach_data := sortReaches st.reach_data } := by
  unfold reset_reaches
  dsimp only
  rw [h0]
  simp only [Bool.false_eq_true, if_false]
  rw [hneg]
  simp only [Bool.false_eq_true, if_false]
  have hsome : ∀ s ∈ (period0 st.segment_data).map fun sg => sg.nseg,
      ((reachCounts (sortReaches st.reach_data) s).map rangeTo).isSome := by
    intro s hs
    rcases List.mem_map.mp hs with ⟨sg, hsg, heq⟩
    subst heq
    have := hkeys sg hsg
    cases hc : reachCounts (sortReaches st.reach_data) sg.nseg with
    | none => rw [hc] at this; exact Bool.noConfusion this
    | some k => rfl
  rcases option_mapM_some _ _ hsome with ⟨ranges, hranges, hf2⟩
  rw [hranges]
  dsimp only
  have hlens : ranges.map List.length =
      ((period0 st.segment_data).map fun sg => sg.nseg).map
        fun s => countIseg (sortReaches st.reach_data) s := by
    refine forall2_map_eq _ _ ?_ hf2
    intro s b hb
    cases hc : reachCounts (sortReaches st.reach_data) s with
    | none => rw [hc] at hb; exact Option.noConfusion hb
    | some k =>
      rw [hc] at hb
      have hbr : b = rangeTo k := by
        injection hb with h'
        exact h'.symm
      have hk : k = countIseg (sortReaches st.reach_data) s := by
        unfold reachCounts at hc
        split at hc
        · exact (Option.some.inj hc).symm
        · exact Option.noConfusion hc
      rw [hbr]
      rw [rangeTo_length]
      exact hk
  have hflat : ranges.flatten.length ≠ (sortReaches st.reach_data).length := by
    rw [List.length_flatten, hlens, List.map_map]
    exact hmis
  rw [if_neg hflat]

/-- A state whose period-0 segment table lists only segment 2 while the
reach table has reaches in segments 1 and 2: every `reach_counts` key is
valid but the implied total (1) mismatches the table length (2). -/
def stC7w : SFRState :=
  { reach_data := [mkR 1 1 1 1 0 0 1, mkR 2 2 1 2 0 0 1],
    segment_data := [mkS 2 0] }

/-- The mismatch lemma exercised concretely: on `stC7w` the counts
mismatch and `reset_reaches` completes as a silent no-op (rows sorted,
`ireach` untouched). -/
theorem reset_reaches_mismatch_noop_witness :
    (period0 stC7w.segment_data).isEmpty = false ∧
      (((period0 stC7w.segment_data).map fun sg =>
          countIseg (sortReaches stC7w.reach_data) sg.nseg).sum) ≠
        (sortReaches stC7w.reach_data).length ∧
      reset_reaches stC7w = .ok { stC7w with reach_data := sortReaches stC7w.reach_data } := by
  refine ⟨rfl, by decide, ?_⟩
  exact reset_reaches_mismatch_noop stC7w rfl rfl (by decide) (by decide)

/-! ### Claim C9 -/

/-- The states an `SFRData` instance can actually be in: produced by the
constructor and closed under the public operations and derived-property
accessors modelled above. -/
inductive Reachable : SFRState → Prop where
  | init (rd : List Reach) (sd : List Segment) (enforce : Bool) (st : SFRState) :
      mkSFRData rd sd enforce = .ok st → Reachable st
  | repair (st : SFRState) : Reachable st → Reachable (repair_outsegs st)
  | resetReaches (st st' : SFRState) : Reachable st → reset_reaches st = .ok st' →
      Reachable st'
  | resetSegments (st st' : SFRState) : Reachable st → reset_segments st = .ok st' →
      Reachable st'
  | setOutreaches (st st' : SFRState) : Reachable st → set_outreaches st = .ok st' →
      Reachable st'
  | getSlopes (d mn mx : ℚ) (st st' : SFRState) : Reachable st →
      get_slopes d mn mx st = .ok st' → Reachable st'
  | segRouting (st : SFRState) (g : List (Int × Int)) (st' : SFRState) : Reachable st →
      segment_routing st = .ok (g, st') → Reachable st'
  | rnoRouting (st : SFRState) (g : List (Int × Int)) (st' : SFRState) : Reachable st →
      rno_routing st = .ok (g, st') → Reachable st'
  | setPaths (st st' : SFRState) : Reachable st → _set_paths st = .ok st' → Reachable st'
  | setReachPaths (st st' : SFRState) : Reachable st → _set_reach_paths st = .ok st' →
      Reachable st'
  | resetRouting (st st' : SFRState) : Reachable st → _reset_routing st = .ok st' →
      Reachable st'
  | reachPaths (st : SFRState) (m : List (Int × List Int)) (st' : SFRState) :
      Reachable st → reach_paths st = .ok (m, st') → Reachable st'
  | toRiv (st : SFRState) (a b c : Option (List Int)) (dr : Bool) (st' : SFRState) :
      Reachable st → to_riv st a b c dr = .ok st' → Reachable st'

theorem reset_segments_ok_caches {st st' : SFRState} (h : reset_segments st = .ok st') :
    st'.segRoutingCache = st.segRoutingCache ∧ st'.routingCache = st.routingCache ∧
      st'.rnoRoutingCache = st.rnoRoutingCache ∧ st'.pathsCache = st.pathsCache ∧
      st'.reachPathsCache = st.reachPathsCache := by
  unfold reset_segments at h
  rcases except_bind_ok h with ⟨m, _, h2⟩
  rcases except_bind_ok h2 with ⟨sd', _, h3⟩
  rcases except_bind_ok h3 with ⟨rd', _, h4⟩
  dsimp only at h4
  split at h4
  · injection h4 with h4'
    rw [← h4']
    exact ⟨rfl, rfl, rfl, rfl, rfl⟩
  · exact Except.noConfusion h4

theorem segment_routing_caches {st : SFRState} {g : List (Int × Int)} {st' : SFRState}
    (h : segment_routing st = .ok (g, st')) :
    st'.segRoutingCache = st.segRoutingCache := by
  unfold segment_routing at h
  split at h
  · split at h
    · exact Except.noConfusion h
    · injection h with h'
      injection h' with h1 h2
      rw [← h2]
  · rcases except_bind_ok h with ⟨cond, _, h2⟩
    split at h2
    · split at h2
      · exact Except.noConfusion h2
      · injection h2 with h'
        injection h' with h1 h2'
        rw [← h2']
    · split at h2
      · injection h2 with h'
        injection h' with h1 h2'
        rw [← h2']
      · exact Except.noConfusion h2

theorem set_outreaches_caches {st st' : SFRState} (h : set_outreaches st = .ok st') :
    st'.segRoutingCache = st.segRoutingCache := by
  unfold set_outreaches at h
  rcases except_bind_ok h with ⟨st2, hst2, h2⟩
  rcases except_bind_ok h2 with ⟨gs, hgs, h3⟩
  rcases except_bind_ok h3 with ⟨out, hout, hfin⟩
  obtain ⟨g, stg⟩ := gs
  injection hfin with hfin'
  have h4 : stg.segRoutingCache = (repair_outsegs st2).segRoutingCache :=
    segment_routing_caches hgs
  have h5 : (repair_outsegs st2).segRoutingCache = st2.segRoutingCache := rfl
  have h6 := (reset_reaches_ok_fields hst2).2.1
  rw [← hfin']
  show stg.segRoutingCache = st.segRoutingCache
  rw [h4, h5, h6]

theorem get_slopes_caches {d mn mx : ℚ} {st st' : SFRState}
    (h : get_slopes d mn mx st = .ok st') :
    st'.segRoutingCache = st.segRoutingCache := by
  unfold get_slopes at h
  dsimp only at h
  split at h
  · exact Except.noConfusion h
  · rcases except_bind_ok h with ⟨dn, _, h2⟩
    injection h2 with h2'
    rw [← h2']

theorem rno_routing_caches {st : SFRState} {g : List (Int × Int)} {st' : SFRState}
    (h : rno_routing st = .ok (g, st')) :
    st'.segRoutingCache = st.segRoutingCache := by
  unfold rno_routing at h
  split at h
  · rcases except_bind_ok h with ⟨stA, hA, h2⟩
    injection h2 with h'
    injection h' with h1 h2'
    rw [← h2']
    show stA.segRoutingCache = st.segRoutingCache
    exact set_outreaches_caches hA
  · rcases except_bind_ok h with ⟨cond, _, h2⟩
    split at h2
    · rcases except_bind_ok h2 with ⟨stA, hA, h3⟩
      injection h3 with h'
      injection h' with h1 h2'
      rw [← h2']
      show stA.segRoutingCache = st.segRoutingCache
      exact set_outreaches_caches hA
    · split at h2
      · injection h2 with h'
        injection h' with h1 h2'
        rw [← h2']
      · exact Except.noConfusion h2

theorem set_paths_caches {st st' : SFRState} (h : _set_paths st = .ok st') :
    st'.segRoutingCache = st.segRoutingCache := by
  unfold _set_paths at h
  rcases except_bind_ok h with ⟨gs, hgs, h2⟩
  rcases except_bind_ok h2 with ⟨ps, _, h3⟩
  obtain ⟨g, stg⟩ := gs
  injection h3 with h3'
  rw [← h3']
  show stg.segRoutingCache = st.segRoutingCache
  exact segment_routing_caches hgs

theorem set_reach_paths_caches {st st' : SFRState} (h : _set_reach_paths st = .ok st') :
    st'.segRoutingCache = st.segRoutingCache := by
  unfold _set_reach_paths at h
  rcases except_bind_ok h with ⟨gs, hgs, h2⟩
  rcases except_bind_ok h2 with ⟨ps, _, h3⟩
  obtain ⟨g, stg⟩ := gs
  injection h3 with h3'
  rw [← h3']
  show stg.segRoutingCache = st.segRoutingCache
  exact rno_routing_caches hgs

theorem reset_routing_segCache {st st' : SFRState} (h : _reset_routing st = .ok st') :
    st'.segRoutingCache = none := by
  unfold _reset_routing at h
  rcases except_bind_ok h with ⟨st1, _, h2⟩
  rcases except_bind_ok h2 with ⟨st2, _, h3⟩
  rcases except_bind_ok h3 with ⟨st4, h4, h5⟩
  have hA := set_reach_paths_caches h5
  have hB := set_paths_caches h4
  rw [hA]
  show ({ st4 with rnoRoutingCache := none } : SFRState).segRoutingCache = none
  show st4.segRoutingCache = none
  rw [hB]

theorem reach_paths_segCache {st : SFRState} {m : List (Int × List Int)} {st' : SFRState}
    (hnone : st.segRoutingCache = none) (h : reach_paths st = .ok (m, st')) :
    st'.segRoutingCache = none := by
  unfold reach_paths at h
  split at h
  · rcases except_bind_ok h with ⟨stA, hA, h2⟩
    split at h2
    · injection h2 with h'
      injection h' with h1 h2'
      rw [← h2', set_reach_paths_caches hA]
      exact hnone
    · exact Except.noConfusion h2
  · rcases except_bind_ok h with ⟨b, _, h2⟩
    split at h2
    · rcases except_bind_ok h2 with ⟨stA, hA, h3⟩
      split at h3
      · injection h3 with h'
        injection h' with h1 h2'
        rw [← h2']
        exact reset_routing_segCache hA
      · exact Except.noConfusion h3
    · split at h2
      · injection h2 with h'
        injection h' with h1 h2'
        rw [← h2']
        exact hnone
      · exact Except.noConfusion h2

theorem foldlM_pres {σ : Type} (P : σ → Prop) (f : σ → Int → Except Err σ)
    (hf : ∀ s x s', P s → f s x = .ok s' → P s') :
    ∀ (l : List Int) (s : σ), P s → ∀ {s' : σ}, l.foldlM f s = .ok s' → P s' := by
  intro l
  induction l with
  | nil =>
    intro s hs s' h
    rw [List.foldlM_nil] at h
    cases h
    exact hs
  | cons a t ih =>
    intro s hs s' h
    rw [List.foldlM_cons] at h
    rcases except_bind_ok h with ⟨s1, h1, h2⟩
    exact ih s1 (hf s a s1 hs h1) h2

theorem to_riv_segCache {st : SFRState} {a b c : Option (List Int)} {dr : Bool}
    {st' : SFRState} (hnone : st.segRoutingCache = none)
    (h : to_riv st a b c dr = .ok st') : st'.segRoutingCache = none := by
  unfold to_riv at h
  dsimp only at h
  rcases except_bind_ok h with ⟨cs, hcs, h2⟩
  have hstep : ∀ (s : List Int × SFRState) (x : Int) (s' : List Int × SFRState),
      s.2.segRoutingCache = none →
      (if s.1.contains x then pure s
       else do
         let rps ← reach_paths s.2
         match dget rps.1 x with
         | none => Except.error Err.keyError
         | some p => pure (s.1 ++ p.filter (fun y => !s.1.contains y), rps.2)) = .ok s' →
      s'.2.segRoutingCache = none := by
    intro s x s' hsP hs'
    split at hs'
    · cases hs'
      exact hsP
    · rcases except_bind_ok hs' with ⟨rps, hrps, h3⟩
      obtain ⟨mm, stp⟩ := rps
      have hstp : stp.segRoutingCache = none := reach_paths_segCache hsP hrps
      split at h3
      · exact Except.noConfusion h3
      · cases h3
        exact hstp
  have hcs2 : cs.2.segRoutingCache = none :=
    foldlM_pres (fun p : List Int × SFRState => p.2.segRoutingCache = none) _ hstep _ _
      hnone hcs
  split at h2
  · rw [if_neg Bool.false_ne_true] at h2
    cases h2
    exact hcs2
  · split at h2
    · exact reset_routing_segCache h2
    · cases h2
      exact hcs2

/-- All constructor pipelines (`mkSFRData`) leave the `_segment_routing`
cache at its `__init__` value `None`: no step of the pipeline writes it. -/
theorem mkSFRData_segCache {rd : List Reach} {sd : List Segment} {e : Bool}
    {st : SFRState} (h : mkSFRData rd sd e = .ok st) : st.segRoutingCache = none := by
  unfold mkSFRData at h
  rcases except_bind_ok h with ⟨rd2, _, h2⟩
  dsimp only at h2
  split at h2
  · rcases except_bind_ok h2 with ⟨st1, hst1, h3⟩
    rcases except_bind_ok h3 with ⟨st2, hst2, h4⟩
    rw [get_slopes_caches h4, set_outreaches_caches hst2]
    cases hst1
    rfl
  · rcases except_bind_ok h2 with ⟨st1, hst1, h3⟩
    rcases except_bind_ok h3 with ⟨st2, hst2, h4⟩
    rw [get_slopes_caches h4, set_outreaches_caches hst2]
    rw [(reset_segments_ok_caches hst1).1]

/-- The simpler recompute predicate of claim C9: the reach mapping
rebuilt from `reach_data` differs from the cached `_rno_routing`, and
the two routing representations fail `rno_nseg_routing_consistent`. -/
def simpleRoutingChanged (st : SFRState) : Bool :=
  let rg : List (Int × Int) :=
    (st.reach_data.map fun r => r.rno).zip (st.reach_data.map fun r => r.outreach)
  (match st.rnoRoutingCache with
   | none => true
   | some d => !dictEquiv rg d) && !consistentB st

/-- Claim C9: in every reachable state the `_segment_routing` cache is
still `None` (it is never assigned after `__init__`; the
`segment_routing` accessor stores into `_routing` instead).
Consequently the segment-side comparison in `_routing_changed` always
reports a change, so `_routing_changed` is extensionally the simpler
predicate `simpleRoutingChanged` (reach mapping differs from the cached
`_rno_routing` AND the representations are inconsistent), and every
successful `segment_routing` access rebuilds the mapping from the
current segment table. -/
theorem segment_routing_cache_never_set (st : SFRState) (h : Reachable st) :
    st.segRoutingCache = none ∧
      (∀ b, _routing_changed st = .ok b → b = simpleRoutingChanged st) ∧
      (∀ g st', segment_routing st = .ok (g, st') →
        g = rebuildSegGraph st.segment_data ∧
          st' = { st with routingCache := some (rebuildSegGraph st.segment_data) }) := by
  have hnone : st.segRoutingCache = none := by
    induction h with
    | init rd sd e st hmk => exact mkSFRData_segCache hmk
    | repair st hr ih => exact ih
    | resetReaches st st' hr hop ih =>
      rw [(reset_reaches_ok_fields hop).2.1]
      exact ih
    | resetSegments st st' hr hop ih =>
      rw [(reset_segments_ok_caches hop).1]
      exact ih
    | setOutreaches st st' hr hop ih =>
      rw [set_outreaches_caches hop]
      exact ih
    | getSlopes d mn mx st st' hr hop ih =>
      rw [get_slopes_caches hop]
      exact ih
    | segRouting st g st' hr hop ih =>
      rw [segment_routing_caches hop]
      exact ih
    | rnoRouting st g st' hr hop ih =>
      rw [rno_routing_caches hop]
      exact ih
    | setPaths st st' hr hop ih =>
      rw [set_paths_caches hop]
      exact ih
    | setReachPaths st st' hr hop ih =>
      rw [set_reach_paths_caches hop]
      exact ih
    | resetRouting st st' hr hop ih => exact reset_routing_segCache hop
    | reachPaths st m st' hr hop ih => exact reach_paths_segCache ih hop
    | toRiv st a b c dr st' hr hop ih => exact to_riv_segCache ih hop
  refine ⟨hnone, ?_, ?_⟩
  · intro b hb
    unfold _routing_changed at hb
    dsimp only at hb
    split at hb
    · exact Except.noConfusion hb
    · injection hb with hb'
      rw [← hb', hnone]
      dsimp only
      rw [Bool.true_and]
      rfl
  · intro g st' hg
    unfold segment_routing at hg
    rw [hnone] at hg
    dsimp only at hg
    split at hg
    · exact Except.noConfusion hg
    · injection hg with hg'
      injection hg' with h1 h2
      refine ⟨h1.symm, ?_⟩
      rw [hnone]
      exact h2.symm

/-- The constructor output on the two-segment network, a reachable
state. -/
def stC9w : SFRState :=
  match mkSFRData stC1w.reach_data stC1w.segment_data true with
  | .ok s => s
  | .error _ => soloState

/-- Witness for C9: the constructor completes on the two-segment
network, the resulting state is reachable, and the theorem applies
there: its `_segment_routing` cache is `None`. -/
theorem segment_routing_cache_never_set_witness :
    mkSFRData stC1w.reach_data stC1w.segment_data true = .ok stC9w ∧
      stC9w.segRoutingCache = none :=
  ⟨by rfl,
    (segment_routing_cache_never_set stC9w
      (Reachable.init stC1w.reach_data stC1w.segment_data true stC9w (by rfl))).1⟩

/-- One routing step among strictly-positive segment ids: `x` is a known
id and its (last-bound) destination in the raw `nseg → outseg` pairing
is `y`.  A cycle among strictly-positive ids is a `TransGen` loop. -/
def SegStep (g : List (Int × Int)) (ids : List Int) (x y : Int) : Prop :=
  x ∈ ids ∧ 0 < x ∧ dstOf g x = y

/-- A graph admitting a strictly monotone rank has no positive-id cycle. -/
theorem acyclic_of_rank {g : List (Int × Int)} {ids : List Int} (φ : Int → Nat)
    (h : ∀ x y, SegStep g ids x y → φ x < φ y) :
    ∀ x, ¬ Relation.TransGen (SegStep g ids) x x := by
  have key : ∀ a b, Relation.TransGen (SegStep g ids) a b → φ a < φ b := by
    intro a b hab
    induction hab with
    | single hs => exact h _ _ hs
    | tail _ hs ih => exact lt_trans ih (h _ _ hs)
  intro x hx
  exact lt_irrefl _ (key x x hx)

theorem dedupFirst_aux_of_nodup (l : List Int) :
    ∀ acc : List Int, l.Nodup → (∀ x ∈ l, x ∉ acc) →
      l.foldl (fun acc x => if x ∈ acc then acc else acc ++ [x]) acc = acc ++ l := by
  induction l with
  | nil => intro acc _ _; simp
  | cons a t ih =>
    intro acc h hd
    simp only [List.foldl_cons]
    rw [if_neg (hd a (List.mem_cons_self a t))]
    rw [ih (acc ++ [a]) (List.nodup_cons.mp h).2 ?side]
    · simp
    case side =>
      intro x hx
      simp only [List.mem_append, List.mem_singleton]
      rintro (hxa | hxa)
      · exact hd x (List.mem_cons_of_mem a hx) hxa
      · exact (List.nodup_cons.mp h).1 (hxa ▸ hx)

/-- On a duplicate-free column, the dict key list is the column itself. -/
theorem dedupFirst_of_nodup {l : List Int} (h : l.Nodup) : dedupFirst l = l := by
  rw [dedupFirst, dedupFirst_aux_of_nodup l [] h (by simp)]
  simp

/-- The keys numbered by `topoAssign` are exactly the remaining ids. -/
theorem topoAssign_keys {g : List (Int × Int)} :
    ∀ (fuel : Nat) (nxt : Int) (rem : List Int) (m : List (Int × Int)),
      topoAssign g fuel nxt rem = some m → (m.map Prod.fst).Perm rem := by
  intro fuel
  induction fuel with
  | zero =>
    intro nxt rem m h
    unfold topoAssign at h
    split at h
    · injection h with h'
      rw [← h']
      simp_all [List.isEmpty_iff]
    · exact Option.noConfusion h
  | succ n ih =>
    intro nxt rem m h
    unfold topoAssign at h
    split at h
    · injection h with h'
      rw [← h']
      simp_all [List.isEmpty_iff]
    · rcases hf : rem.find? (noPredIn g rem) with _ | s
      · rw [hf] at h
        exact Option.noConfusion h
      · rw [hf] at h
        dsimp only at h
        rcases Option.map_eq_some'.mp h with ⟨m', hm', hmm⟩
        rw [← hmm]
        have hperm := ih (nxt + 1) (rem.erase s) m' hm'
        have hs : s ∈ rem := List.mem_of_find?_eq_some hf
        exact (List.Perm.cons s hperm).trans (List.perm_cons_erase hs).symm

/-- Every number handed out by `topoAssign` is at least the counter. -/
theorem topoAssign_value_lb {g : List (Int × Int)} :
    ∀ (fuel : Nat) (nxt : Int) (rem : List Int) (m : List (Int × Int)),
      topoAssign g fuel nxt rem = some m → ∀ p ∈ m, nxt ≤ p.2 := by
  intro fuel
  induction fuel with
  | zero =>
    intro nxt rem m h p hp
    unfold topoAssign at h
    split at h
    · injection h with h'
      rw [← h'] at hp
      cases hp
    · exact Option.noConfusion h
  | succ n ih =>
    intro nxt rem m h p hp
    unfold topoAssign at h
    split at h
    · injection h with h'
      rw [← h'] at hp
      cases hp
    · rcases hf : rem.find? (noPredIn g rem) with _ | s
      · rw [hf] at h
        exact Option.noConfusion h
      · rw [hf] at h
        dsimp only at h
        rcases Option.map_eq_some'.mp h with ⟨m', hm', hmm⟩
        rw [← hmm] at hp
        rcases List.mem_cons.mp hp with h1 | h1
        · rw [h1]
        · have := ih (nxt + 1) (rem.erase s) m' hm' p h1
          omega

/-- The numbers handed out are consecutive, starting at the counter. -/
theorem topoAssign_values {g : List (Int × Int)} :
    ∀ (fuel : Nat) (nxt : Int) (rem : List Int) (m : List (Int × Int)),
      topoAssign g fuel nxt rem = some m →
      m.map Prod.snd = (List.range m.length).map fun i => nxt + Int.ofNat i := by
  intro fuel
  induction fuel with
  | zero =>
    intro nxt rem m h
    unfold topoAssign at h
    split at h
    · injection h with h'
      rw [← h']
      rfl
    · exact Option.noConfusion h
  | succ n ih =>
    intro nxt rem m h
    unfold topoAssign at h
    split at h
    · injection h with h'
      rw [← h']
      rfl
    · rcases hf : rem.find? (noPredIn g rem) with _ | s
      · rw [hf] at h
        exact Option.noConfusion h
      · rw [hf] at h
        dsimp only at h
        rcases Option.map_eq_some'.mp h with ⟨m', hm', hmm⟩
        rw [← hmm]
        simp only [List.map_cons, List.length_cons]
        rw [ih (nxt + 1) (rem.erase s) m' hm']
        rw [List.range_succ_eq_map, List.map_cons, List.map_map]
        have h0 : nxt + Int.ofNat 0 = nxt := by
          rw [show Int.ofNat 0 = 0 from rfl, add_zero]
        rw [h0]
        have h1 : ∀ i ∈ List.range m'.length,
            (nxt + 1) + Int.ofNat i = ((fun i => nxt + Int.ofNat i) ∘ Nat.succ) i := by
          intro i _
          simp only [Function.comp]
          rw [show ∀ j : Nat, Int.ofNat (Nat.succ j) = Int.ofNat j + 1 from fun j => rfl]
          omega
        rw [List.map_congr_left h1]

/-- Numbers increase along every routing edge between distinct numbered
ids: when `x` still routes to an unnumbered `y`, `y` cannot be chosen
while `x` remains, so `y` is numbered after `x`. -/
theorem topoAssign_mono {g : List (Int × Int)} :
    ∀ (fuel : Nat) (nxt : Int) (rem : List Int) (m : List (Int × Int)),
      topoAssign g fuel nxt rem = some m →
      ∀ x y nx ny, (x, nx) ∈ m → (y, ny) ∈ m → dstOf g x = y → x ≠ y → nx < ny := by
  intro fuel
  induction fuel with
  | zero =>
    intro nxt rem m h x y nx ny hx
    unfold topoAssign at h
    split at h
    · injection h with h'
      rw [← h'] at hx
      cases hx
    · exact Option.noConfusion h
  | succ n ih =>
    intro nxt rem m h x y nx ny hx hy hedge hne
    unfold topoAssign at h
    split at h
    · injection h with h'
      rw [← h'] at hx
      cases hx
    · rcases hf : rem.find? (noPredIn g rem) with _ | s
      · rw [hf] at h
        exact Option.noConfusion h
      · rw [hf] at h
        dsimp only at h
        rcases Option.map_eq_some'.mp h with ⟨m', hm', hmm⟩
        rw [← hmm] at hx hy
        have hnp : noPredIn g rem s = true := List.find?_some hf
        rcases List.mem_cons.mp hx with h1 | h1 <;> rcases List.mem_cons.mp hy with h2 | h2
        · exact absurd (by rw [(Prod.mk.injEq ..).mp h1 |>.1, (Prod.mk.injEq ..).mp h2 |>.1])
            hne
        · have hnx : nx = nxt := ((Prod.mk.injEq ..).mp h1).2
          have := topoAssign_value_lb n (nxt + 1) (rem.erase s) m' hm' (y, ny) h2
          simp only at this
          omega
        · have hy2 : y = s := ((Prod.mk.injEq ..).mp h2).1
          have hxk : x ∈ m'.map Prod.fst := List.mem_map_of_mem Prod.fst h1
          have hxrem : x ∈ rem :=
            List.mem_of_mem_erase ((topoAssign_keys n (nxt + 1) (rem.erase s) m' hm').mem_iff.mp hxk)
          have := (List.all_eq_true.mp hnp) x hxrem
          rw [bne_iff_ne] at this
          exact absurd (hedge.trans hy2) this
        · exact ih (nxt + 1) (rem.erase s) m' hm' x y nx ny h1 h2 hedge hne

/-- In an acyclic graph a nonempty remaining set always contains an id
with no remaining predecessor (Kahn progress). -/
theorem exists_noPred {g : List (Int × Int)} {ids rem : List Int}
    (hacyc : ∀ x, ¬ Relation.TransGen (SegStep g ids) x x)
    (hpos : ∀ x ∈ ids, 0 < x)
    (hsub : ∀ x ∈ rem, x ∈ ids) (hne : rem ≠ []) :
    ∃ s ∈ rem, noPredIn g rem s = true := by
  by_contra hc
  push_neg at hc
  have hpred : ∀ s ∈ rem, ∃ p ∈ rem, dstOf g p = s := by
    intro s hs
    have h2 : ¬ ∀ p ∈ rem, (dstOf g p != s) = true :=
      fun hall => hc s hs (List.all_eq_true.mpr hall)
    push_neg at h2
    rcases h2 with ⟨p, hp, hps⟩
    refine ⟨p, hp, ?_⟩
    by_contra hne2
    exact hps (bne_iff_ne.mpr hne2)
  rcases List.exists_mem_of_ne_nil rem hne with ⟨a0, ha0⟩
  let Pred : {x : Int // x ∈ rem.toFinset} → {x : Int // x ∈ rem.toFinset} → Prop :=
    fun p s => dstOf g p.val = s.val
  have lift : ∀ a b, Relation.TransGen Pred a b →
      Relation.TransGen (SegStep g ids) a.val b.val := by
    intro a b hab
    induction hab with
    | single h =>
      have ha : a.val ∈ ids := hsub _ (List.mem_toFinset.mp a.2)
      exact Relation.TransGen.single ⟨ha, hpos _ ha, h⟩
    | tail hab hbc ih =>
      rename_i b' c'
      have hb : b'.val ∈ ids := hsub _ (List.mem_toFinset.mp b'.2)
      exact Relation.TransGen.tail ih ⟨hb, hpos _ hb, hbc⟩
  have hirr : IsIrrefl {x : Int // x ∈ rem.toFinset} (Relation.TransGen Pred) := by
    refine ⟨fun t ht => hacyc t.val (lift t t ht)⟩
  have hwf : WellFounded (Relation.TransGen Pred) :=
    Finite.wellFounded_of_trans_of_irrefl _
  rcases hwf.has_min Set.univ ⟨⟨a0, List.mem_toFinset.mpr ha0⟩, trivial⟩ with ⟨mn, _, hmin⟩
  rcases hpred mn.val (List.mem_toFinset.mp mn.2) with ⟨p, hp, hdp⟩
  exact hmin ⟨p, List.mem_toFinset.mpr hp⟩ trivial (Relation.TransGen.single hdp)

/-- Kahn succeeds on every acyclic remaining set with enough fuel. -/
theorem topoAssign_some {g : List (Int × Int)} {ids : List Int}
    (hacyc : ∀ x, ¬ Relation.TransGen (SegStep g ids) x x)
    (hpos : ∀ x ∈ ids, 0 < x) :
    ∀ (fuel : Nat) (nxt : Int) (rem : List Int), rem.length ≤ fuel →
      (∀ x ∈ rem, x ∈ ids) → ∃ m, topoAssign g fuel nxt rem = some m := by
  intro fuel
  induction fuel with
  | zero =>
    intro nxt rem hlen hsub
    have h0 : rem = [] := List.length_eq_zero.mp (Nat.le_zero.mp hlen)
    rw [h0]
    exact ⟨[], rfl⟩
  | succ n ih =>
    intro nxt rem hlen hsub
    by_cases hre : rem = []
    · rw [hre]
      exact ⟨[], rfl⟩
    · rcases exists_noPred hacyc hpos hsub hre with ⟨s, hs, hnp⟩
      have hfind : ∃ t, rem.find? (noPredIn g rem) = some t := by
        cases hf : rem.find? (noPredIn g rem) with
        | some t => exact ⟨t, rfl⟩
        | none => exact absurd hnp (by simpa using List.find?_eq_none.mp hf s hs)
      rcases hfind with ⟨t, ht⟩
      have htm : t ∈ rem := List.mem_of_find?_eq_some ht
      have hlen' : (rem.erase t).length ≤ n := by
        have h1 := List.length_erase_of_mem htm
        have h2 : 0 < rem.length := List.length_pos.mpr hre
        omega
      have hsub' : ∀ x ∈ rem.erase t, x ∈ ids :=
        fun x hx => hsub x (List.mem_of_mem_erase hx)
      rcases ih (nxt + 1) (rem.erase t) hlen' hsub' with ⟨m', hm'⟩
      refine ⟨(t, nxt) :: m', ?_⟩
      unfold topoAssign
      rw [if_neg (by simpa [List.isEmpty_iff] using hre)]
      rw [ht]
      dsimp only
      rw [hm']
      rfl

/-- Pairs sharing a value in a value-duplicate-free dict share the key. -/
theorem nodup_snd_inj {m : List (Int × Int)} (h : (m.map Prod.snd).Nodup)
    {x y n : Int} (hx : (x, n) ∈ m) (hy : (y, n) ∈ m) : x = y := by
  induction m with
  | nil => cases hx
  | cons p t ih =>
    simp only [List.map_cons, List.nodup_cons] at h
    rcases List.mem_cons.mp hx with h1 | h1 <;> rcases List.mem_cons.mp hy with h2 | h2
    · exact ((Prod.mk.injEq ..).mp (h1.trans h2.symm)).1
    · exact absurd (List.mem_map_of_mem Prod.snd h2) (by rw [← h1] at h; exact h.1)
    · exact absurd (List.mem_map_of_mem Prod.snd h1) (by rw [← h2] at h; exact h.1)
    · exact ih h.2 h1 h2

/-- Looking a duplicate-free dict up at each of its keys yields its
values. -/
theorem dget_values {m : List (Int × Int)} (hnd : (m.map Prod.fst).Nodup) :
    (m.map Prod.fst).map (fun x => (dget m x).getD 0) = m.map Prod.snd := by
  induction m with
  | nil => rfl
  | cons p t ih =>
    simp only [List.map_cons, List.nodup_cons] at hnd
    simp only [List.map_cons]
    have h1 : dget (p :: t) p.1 = some p.2 := by
      rw [dget_cons, (dget_eq_none t p.1).mpr hnd.1]
      simp
    have h2 : ∀ x ∈ t.map Prod.fst,
        (dget (p :: t) x).getD 0 = (dget t x).getD 0 := by
      intro x hx
      have hsome : (dget t x).isSome := (dget_isSome t x).mpr hx
      rcases Option.isSome_iff_exists.mp hsome with ⟨w, hw⟩
      rw [dget_cons, hw]
    rw [List.map_congr_left h2, ih hnd.2]
    show (dget (p :: t) p.1).getD 0 :: t.map Prod.snd = p.2 :: t.map Prod.snd
    rw [h1]
    rfl

/-- A `mapM` whose rows all succeed is the corresponding `map`. -/
theorem mapM_ok_of_forall {α β : Type} {l : List α} {f : α → Except Err β} {g : α → β}
    (h : ∀ a ∈ l, f a = .ok (g a)) : l.mapM f = .ok (l.map g) := by
  induction l with
  | nil => rfl
  | cons a t ih =>
    rw [List.mapM_cons, h a (List.mem_cons_self a t),
      ih (fun b hb => h b (List.mem_cons_of_mem a hb))]
    rfl

/-- `renumber_segments` on an acyclic table of positive ids succeeds;
its keys are the distinct ids, its values are consecutive numbers from
`1`, and numbering is strictly monotone along every routing edge between
distinct ids. -/
theorem renumber_segments_ok {nseg outseg : List Int}
    (hacyc : ∀ x, ¬ Relation.TransGen (SegStep (nseg.zip outseg) (dedupFirst nseg)) x x)
    (hpos : ∀ x ∈ nseg, 0 < x) :
    ∃ m, renumber_segments nseg outseg = .ok m ∧
      (m.map Prod.fst).Perm (dedupFirst nseg) ∧
      m.map Prod.snd = (List.range m.length).map (fun i => 1 + Int.ofNat i) ∧
      (∀ x y nx ny, (x, nx) ∈ m → (y, ny) ∈ m →
        dstOf (nseg.zip outseg) x = y → x ≠ y → nx < ny) := by
  have hpos' : ∀ x ∈ dedupFirst nseg, 0 < x :=
    fun x hx => hpos x ((mem_dedupFirst nseg x).mp hx)
  rcases topoAssign_some hacyc hpos' (dedupFirst nseg).length 1 (dedupFirst nseg)
    le_rfl (fun x hx => hx) with ⟨m, hm⟩
  refine ⟨m, ?_, topoAssign_keys _ _ _ _ hm, topoAssign_values _ _ _ _ hm,
    topoAssign_mono _ _ _ _ hm⟩
  unfold renumber_segments
  dsimp only
  rw [hm]

/-- A sorted all-period-0 segment table whose `nseg` column is a
permutation of `1..N` has `nseg` column exactly `1..N`. -/
theorem sorted_col_eq_range {sd : List Segment} {N : Nat}
    (hsorted : List.Sorted segLE sd) (hper : ∀ s ∈ sd, s.per = 0)
    (hperm : (sd.map fun s => s.nseg).Perm (rangeTo N)) :
    (sd.map fun s => s.nseg) = rangeTo N := by
  refine @List.eq_of_perm_of_sorted Int (· ≤ ·) _ _ _ hperm ?_ ?_
  · show List.Pairwise (· ≤ ·) (sd.map fun s => s.nseg)
    rw [List.pairwise_map]
    refine List.Pairwise.imp_of_mem ?_ hsorted
    intro a b ha hb hab
    rcases hab with h | h
    · rw [hper a ha, hper b hb] at h
      exact absurd h (lt_irrefl 0)
    · exact h.2
  · show List.Pairwise (· ≤ ·) (rangeTo N)
    rw [rangeTo, List.pairwise_map]
    refine List.Pairwise.imp ?_ (List.pairwise_lt_range N)
    intro a b hab
    exact add_le_add_right (Int.ofNat_le.mpr (le_of_lt hab)) 1

/-- A table whose `nseg` column equals consecutive indices + 1 passes
the positional-index assert of `reset_segments`. -/
theorem segIndexAssert_of_column :
    ∀ (sd : List Segment) (i : Nat),
      (sd.map fun s => s.nseg) =
        (List.range sd.length).map (fun j => Int.ofNat (i + j) + 1) →
      ((withIdx sd i).all fun p => p.2.per != 0 || p.2.nseg == (p.1 : Int) + 1) = true := by
  intro sd
  induction sd with
  | nil => intro i _; rfl
  | cons a t ih =>
    intro i h
    simp only [List.map_cons, List.length_cons] at h
    rw [List.range_succ_eq_map, List.map_cons, List.map_map] at h
    injection h with h1 h2
    simp only [Nat.add_zero] at h1
    rw [show withIdx (a :: t) i = (i, a) :: withIdx t (i + 1) from rfl]
    rw [List.all_cons, Bool.and_eq_true]
    constructor
    · have ha : a.nseg = (i : Int) + 1 := by
        rw [h1, Int.ofNat_eq_natCast]
      simp [ha]
    · apply ih (i + 1)
      rw [h2]
      apply List.map_congr_left
      intro j _
      simp only [Function.comp]
      rw [show i + Nat.succ j = (i + 1) + j by omega]

/-- The raw `nseg → outseg` pairing of the full segment table. -/
def segZip (st : SFRState) : List (Int × Int) :=
  (st.segment_data.map fun s => s.nseg).zip (st.segment_data.map fun s => s.outseg)

/-- The distinct segment ids, in first-occurrence order. -/
def segIds (st : SFRState) : List Int :=
  dedupFirst (st.segment_data.map fun s => s.nseg)

/-- A renumbering applied to one segment row (both id columns at once). -/
def applySeg (m : List (Int × Int)) (s : Segment) : Segment :=
  { s with nseg := (applyR m s.nseg).getD 0, outseg := (applyR m s.outseg).getD 0 }

/-- A renumbering applied to one reach row (both segment-id columns). -/
def applyReach (m : List (Int × Int)) (r : Reach) : Reach :=
  { r with iseg := (applyR m r.iseg).getD 0, outseg := (applyR m r.outseg).getD 0 }

/-- The renumbering is total and positive on the ids it numbers. -/
theorem renum_total {m : List (Int × Int)} {ids : List Int}
    (hkeys : (m.map Prod.fst).Perm ids)
    (hvals : m.map Prod.snd = (List.range m.length).map (fun i => 1 + Int.ofNat i)) :
    ∀ x ∈ ids, ∃ n, dget m x = some n ∧ 0 < n := by
  intro x hx
  have hxk : x ∈ m.map Prod.fst := hkeys.mem_iff.mpr hx
  rcases Option.isSome_iff_exists.mp ((dget_isSome m x).mpr hxk) with ⟨n, hn⟩
  refine ⟨n, hn, ?_⟩
  have hmem : (x, n) ∈ m := dget_mem hn
  have hsn : n ∈ m.map Prod.snd := List.mem_map_of_mem Prod.snd hmem
  rw [hvals] at hsn
  rcases List.mem_map.mp hsn with ⟨i, _, hi⟩
  have hnn : (0 : Int) ≤ Int.ofNat i := Int.ofNat_nonneg i
  omega

/-- The handed-out numbers are pairwise distinct. -/
theorem renum_vals_nodup {m : List (Int × Int)}
    (hvals : m.map Prod.snd = (List.range m.length).map (fun i => 1 + Int.ofNat i)) :
    (m.map Prod.snd).Nodup := by
  rw [hvals]
  refine List.Nodup.map ?_ (List.nodup_range m.length)
  intro a b hab
  simp only at hab
  exact Int.ofNat.inj (add_left_cancel hab)

/-- A value-duplicate-free dict is injective. -/
theorem renum_inj {m : List (Int × Int)} (hvnd : (m.map Prod.snd).Nodup) :
    ∀ x y nx ny, dget m x = some nx → dget m y = some ny → nx = ny → x = y := by
  intro x y nx ny hx hy he
  subst he
  exact nodup_snd_inj hvnd (dget_mem hx) (dget_mem hy)

/-! ### Claim C8 -/

/-- The model cells occupied by the closure reaches (`to_riv` removes by
cell, not by reach number). -/
def rivNodesOf (closure : List Int) (rd : List Reach) : List Int :=
  (rd.filter fun r => closure.contains r.rno).map fun r => r.node

/-- Two independent one-segment branches whose head reaches share model
cell `10`; the second branch continues into cell `11`.  Reach 2 (cell
10, `strtop = 7`) lies outside the downstream closure of reach 1. -/
def stC8cex : SFRState :=
  { reach_data := [mkR 1 1 1 10 0 3 1, mkR 2 2 1 10 3 7 1, mkR 3 2 2 11 0 5 1],
    segment_data := [mkS 1 0, mkS 2 0] }

/-- `reach_paths` output on `stC8cex`. -/
def rpC8pair : (List (Int × List Int)) × SFRState :=
  match reach_paths stC8cex with
  | .ok p => p
  | .error _ => ([], stC8cex)

/-- `to_riv` output on `stC8cex` (selection `rno = 1`, drop enabled). -/
def stC8cexOut : SFRState :=
  match to_riv stC8cex none (some [1]) none true with
  | .ok s => s
  | .error _ => stC8cex

/-- Counterexample to claim C8: selecting reach 1 and dropping, reach 2
is removed from `reach_data` although it is neither selected nor in any
reach path of the selection — it merely shares model cell 10 with reach
1.  (Reach 2 is identified by its untouched `strtop = 7`, which no
surviving row carries; removal is by cell, so the removed set properly
exceeds the selected reaches plus their downstream closure.) -/
theorem to_riv_drops_shared_cell_cex :
    to_riv stC8cex none (some [1]) none true = .ok stC8cexOut ∧
    reach_paths stC8cex = .ok rpC8pair ∧
    (∀ p ∈ rpC8pair.1, p.1 = 1 → (2 : Int) ∉ p.2) ∧
    (∃ r ∈ stC8cex.reach_data, r.rno = 2 ∧ (2 : Int) ∉ ([1] : List Int) ∧ r.strtop = 7) ∧
    (∀ r ∈ stC8cexOut.reach_data, r.strtop ≠ 7) := by
  refine ⟨rfl, rfl, ?_, ?_, ?_⟩ <;> decide

theorem contains_iff_mem {l : List Int} {a : Int} : l.contains a = true ↔ a ∈ l :=
  List.elem_iff

theorem contains_false_iff {l : List Int} {a : Int} : l.contains a = false ↔ a ∉ l := by
  rw [← Bool.not_eq_true]
  exact not_congr contains_iff_mem

/-- Mapping a projection over conditionally rewritten rows is the plain
projection when the rewrite does not touch the projected fields. -/
theorem map_proj_if {β α : Type} (f : β → α) (g : β → β) (c : β → Bool)
    (hf : ∀ r, f (g r) = f r) (l : List β) :
    ((l.map fun r => if c r then g r else r).map f) = l.map f := by
  rw [List.map_map]
  refine List.map_congr_left ?_
  intro r _
  simp only [Function.comp]
  split
  · exact hf r
  · rfl

theorem if_row_cases {β : Type} (b : Bool) (g : β → β) (r : β) :
    (b = true ∧ (if b then g r else r) = g r) ∨
      (b = false ∧ (if b then g r else r) = r) := by
  cases b
  · exact Or.inr ⟨rfl, rfl⟩
  · exact Or.inl ⟨rfl, rfl⟩

theorem ifR_outseg_node (b : Bool) (r : Reach) :
    (if b then ({ r with outseg := 0 } : Reach) else r).node = r.node := by
  cases b <;> rfl

theorem ifR_outseg_iseg (b : Bool) (r : Reach) :
    (if b then ({ r with outseg := 0 } : Reach) else r).iseg = r.iseg := by
  cases b <;> rfl

theorem ifR_outseg_rno (b : Bool) (r : Reach) :
    (if b then ({ r with outseg := 0 } : Reach) else r).rno = r.rno := by
  cases b <;> rfl

theorem ifR_outseg_outreach (b : Bool) (r : Reach) :
    (if b then ({ r with outseg := 0 } : Reach) else r).outreach = r.outreach := by
  cases b <;> rfl

theorem ifR_outreach_node (b : Bool) (r : Reach) :
    (if b then ({ r with outreach := 0 } : Reach) else r).node = r.node := by
  cases b <;> rfl

theorem ifR_outreach_iseg (b : Bool) (r : Reach) :
    (if b then ({ r with outreach := 0 } : Reach) else r).iseg = r.iseg := by
  cases b <;> rfl

theorem ifS_outseg_nseg (b : Bool) (s : Segment) :
    (if b then ({ s with outseg := 0 } : Segment) else s).nseg = s.nseg := by
  cases b <;> rfl

/-- Claim C8 (amended): every completing `to_riv` run with a reach
selection and `drop_in_sfr = True` factors through a closure, a
threaded state `stp`, and an intermediate dataset `mid` such that: the
surviving rows are exactly the rows lying outside every model cell
occupied by a closure reach, with ids untouched (removal is by CELL —
the removed set is the cell-closure of the selected reaches' downstream
closure, in general a strict superset of it); no surviving row occupies
a closure cell, so in particular every closure reach row is removed;
every surviving `outreach` is `0` or a surviving `rno`; the surviving
segments are exactly those retaining at least one reach; every
surviving `outseg` pointing at a dropped segment is `0`; and the result
is `mid` renumbered by the full routing reset. -/
theorem to_riv_drop_characterization (st : SFRState) (sel : List Int) {st' : SFRState}
    (h : to_riv st none (some sel) none true = .ok st') :
    ∃ closure stp mid,
      ((st.reach_data.filter (rivMask none (some sel) none)).map fun r => r.rno).foldlM
          (fun (acc : List Int × SFRState) x =>
            if acc.1.contains x then pure acc
            else do
              let rps ← reach_paths acc.2
              match dget rps.1 x with
              | none => Except.error Err.keyError
              | some p => pure (acc.1 ++ p.filter (fun y => !acc.1.contains y), rps.2))
          (([] : List Int), st) = .ok (closure, stp) ∧
      (mid.reach_data.map fun r => (r.rno, r.node, r.iseg)) =
        ((stp.reach_data.filter fun r =>
            !(rivNodesOf closure stp.reach_data).contains r.node).map
          fun r => (r.rno, r.node, r.iseg)) ∧
      (∀ q ∈ mid.reach_data, ∀ r ∈ stp.reach_data,
        closure.contains r.rno → q.node ≠ r.node) ∧
      (∀ r ∈ mid.reach_data, r.outreach = 0 ∨
        r.outreach ∈ mid.reach_data.map fun q => q.rno) ∧
      (∀ s ∈ mid.segment_data, ∃ r ∈ mid.reach_data, r.iseg = s.nseg) ∧
      (∀ s ∈ stp.segment_data, (∃ r ∈ mid.reach_data, r.iseg = s.nseg) →
        ∃ t ∈ mid.segment_data, t.nseg = s.nseg) ∧
      (∀ s ∈ mid.segment_data, s.outseg = 0 ∨
        ∀ t ∈ stp.segment_data, t.nseg = s.outseg →
          ∃ t2 ∈ mid.segment_data, t2.nseg = t.nseg) ∧
      _reset_routing mid = .ok st' := by
  unfold to_riv at h
  dsimp only at h
  rcases except_bind_ok h with ⟨cs, hcs, h2⟩
  obtain ⟨closure, stp⟩ := cs
  have hP : ¬((none : Option (List Int)) = none ∧ some sel = (none : Option (List Int)) ∧
      (none : Option (List Int)) = none) := by simp
  rw [if_neg hP, if_pos (rfl : true = true)] at h2
  refine ⟨closure, stp, _, hcs, ?_, ?_, ?_, ?_, ?_, ?_, h2⟩
  · dsimp only
    rw [map_proj_if (fun r : Reach => (r.rno, r.node, r.iseg))
        (fun r : Reach => { r with outseg := 0 }) _ (fun r => rfl),
      map_proj_if (fun r : Reach => (r.rno, r.node, r.iseg))
        (fun r : Reach => { r with outreach := 0 }) _ (fun r => rfl)]
    rfl
  · dsimp only
    intro q hq r hr hcl
    rcases List.mem_map.mp hq with ⟨q2, hq2, hq2e⟩
    rcases List.mem_map.mp hq2 with ⟨q0, hq0, hq0e⟩
    rw [← hq2e, ← hq0e, ifR_outseg_node, ifR_outreach_node]
    rcases List.mem_filter.mp hq0 with ⟨_, hpred⟩
    rw [Bool.not_eq_true'] at hpred
    have hq0n := contains_false_iff.mp hpred
    have hrn : r.node ∈ (stp.reach_data.filter fun r =>
        closure.contains r.rno).map fun r => r.node :=
      List.mem_map_of_mem (fun r => r.node) (List.mem_filter.mpr ⟨hr, hcl⟩)
    intro heq
    rw [heq] at hq0n
    exact hq0n hrn
  · dsimp only
    intro r hrm
    rcases List.mem_map.mp hrm with ⟨r2, hr2, hr2e⟩
    rcases List.mem_map.mp hr2 with ⟨r0, hr0, hr0e⟩
    rw [← hr2e, ← hr0e, ifR_outseg_outreach]
    split
    · exact Or.inl rfl
    · rename_i hb
      rw [Bool.not_eq_true, Bool.not_eq_false'] at hb
      right
      rw [map_proj_if (fun r : Reach => r.rno)
          (fun r : Reach => { r with outseg := 0 }) _ (fun r => rfl),
        map_proj_if (fun r : Reach => r.rno)
          (fun r : Reach => { r with outreach := 0 }) _ (fun r => rfl)]
      exact contains_iff_mem.mp hb
  · dsimp only
    intro s hsm
    rcases List.mem_map.mp hsm with ⟨s2, hs2, hs2e⟩
    rw [← hs2e, ifS_outseg_nseg]
    rcases List.mem_filter.mp hs2 with ⟨hs2mem, hpred⟩
    rw [Bool.not_eq_true'] at hpred
    have hnotriv := contains_false_iff.mp hpred
    rw [List.mem_filter] at hnotriv
    push_neg at hnotriv
    have hall : s2.nseg ∈ stp.segment_data.map fun s => s.nseg :=
      List.mem_map_of_mem (fun s => s.nseg) hs2mem
    have hx := hnotriv hall
    simp only [ne_eq, Bool.not_eq_true, Bool.not_eq_false'] at hx
    rcases List.mem_map.mp (contains_iff_mem.mp hx) with ⟨r2, hr2, hie⟩
    refine ⟨_, List.mem_map_of_mem _ hr2, ?_⟩
    rw [ifR_outseg_iseg]
    exact hie
  · dsimp only
    intro s hs hex
    rcases hex with ⟨r, hrm, hri⟩
    rcases List.mem_map.mp hrm with ⟨r2, hr2, hr2e⟩
    rw [← hr2e, ifR_outseg_iseg] at hri
    have hkept := List.mem_map_of_mem (fun r => r.iseg) hr2
    dsimp only at hkept
    rw [hri] at hkept
    refine ⟨_, List.mem_map_of_mem _ (List.mem_filter.mpr ⟨hs, ?_⟩), ?_⟩
    · rw [Bool.not_eq_true', contains_false_iff]
      intro hmem
      rcases List.mem_filter.mp hmem with ⟨_, hp⟩
      rw [Bool.not_eq_true', contains_false_iff] at hp
      exact hp hkept
    · rw [ifS_outseg_nseg]
  · dsimp only
    intro s hsm
    rcases List.mem_map.mp hsm with ⟨s2, hs2, hs2e⟩
    rw [← hs2e]
    split
    · exact Or.inl rfl
    · rename_i hb
      rw [Bool.not_eq_true] at hb
      have hnotriv := contains_false_iff.mp hb
      right
      intro t ht htn
      refine ⟨_, List.mem_map_of_mem _ (List.mem_filter.mpr ⟨ht, ?_⟩), ?_⟩
      · rw [Bool.not_eq_true', contains_false_iff, htn]
        exact hnotriv
      · rw [ifS_outseg_nseg]

/-- Witness for the amended C8 characterization: it applies to the
concrete shared-cell run of `stC8cex`. -/
theorem to_riv_drop_characterization_witness :
    ∃ closure stp mid,
      ((stC8cex.reach_data.filter (rivMask none (some [1]) none)).map fun r => r.rno).foldlM
          (fun (acc : List Int × SFRState) x =>
            if acc.1.contains x then pure acc
            else do
              let rps ← reach_paths acc.2
              match dget rps.1 x with
              | none => Except.error Err.keyError
              | some p => pure (acc.1 ++ p.filter (fun y => !acc.1.contains y), rps.2))
          (([] : List Int), stC8cex) = .ok (closure, stp) ∧
      (mid.reach_data.map fun r => (r.rno, r.node, r.iseg)) =
        ((stp.reach_data.filter fun r =>
            !(rivNodesOf closure stp.reach_data).contains r.node).map
          fun r => (r.rno, r.node, r.iseg)) ∧
      (∀ q ∈ mid.reach_data, ∀ r ∈ stp.reach_data,
        closure.contains r.rno → q.node ≠ r.node) ∧
      (∀ r ∈ mid.reach_data, r.outreach = 0 ∨
        r.outreach ∈ mid.reach_data.map fun q => q.rno) ∧
      (∀ s ∈ mid.segment_data, ∃ r ∈ mid.reach_data, r.iseg = s.nseg) ∧
      (∀ s ∈ stp.segment_data, (∃ r ∈ mid.reach_data, r.iseg = s.nseg) →
        ∃ t ∈ mid.segment_data, t.nseg = s.nseg) ∧
      (∀ s ∈ mid.segment_data, s.outseg = 0 ∨
        ∀ t ∈ stp.segment_data, t.nseg = s.outseg →
          ∃ t2 ∈ mid.segment_data, t2.nseg = t.nseg) ∧
      _reset_routing mid = .ok stC8cexOut :=
  to_riv_drop_characterization stC8cex [1] (by rfl)

/-! ### Claim C7, revised: both behaviors of `reset_reaches` -/

theorem maxIseg_aux (l : List Reach) :
    ∀ a : Int, a ≤ l.foldl (fun m r => max m r.iseg) a ∧
      ∀ r ∈ l, r.iseg ≤ l.foldl (fun m r => max m r.iseg) a := by
  induction l with
  | nil =>
    intro a
    exact ⟨le_refl a, fun r hr => absurd hr (List.not_mem_nil r)⟩
  | cons b t ih =>
    intro a
    rw [List.foldl_cons]
    rcases ih (max a b.iseg) with ⟨h1, h2⟩
    refine ⟨le_trans (le_max_left a b.iseg) h1, ?_⟩
    intro r hr
    rcases List.mem_cons.mp hr with rfl | hr2
    · exact le_trans (le_max_right a r.iseg) h1
    · exact h2 r hr2

/-- Every `iseg` value is within the `np.bincount` bin range. -/
theorem maxIseg_ge {l : List Reach} {r : Reach} (h : r ∈ l) : r.iseg ≤ maxIseg l :=
  (maxIseg_aux l 0).2 r h

theorem dedup_foldl_const (xs : List Int) :
    ∀ acc : List Int, (∀ x ∈ xs, x ∈ acc) →
      xs.foldl (fun acc x => if x ∈ acc then acc else acc ++ [x]) acc = acc := by
  induction xs with
  | nil => intro acc _; rfl
  | cons a t ih =>
    intro acc h
    rw [List.foldl_cons, if_pos (h a (List.mem_cons_self a t))]
    exact ih acc (fun x hx => h x (List.mem_cons_of_mem a hx))

theorem dedup_foldl_shift (xs : List Int) :
    ∀ (k : Int) (acc : List Int), k ∉ xs →
      xs.foldl (fun acc x => if x ∈ acc then acc else acc ++ [x]) (k :: acc) =
        k :: xs.foldl (fun acc x => if x ∈ acc then acc else acc ++ [x]) acc := by
  induction xs with
  | nil => intro k acc _; rfl
  | cons a t ih =>
    intro k acc hk
    rw [List.foldl_cons, List.foldl_cons]
    by_cases ha : a ∈ acc
    · rw [if_pos (List.mem_cons_of_mem k ha), if_pos ha]
      exact ih k acc (fun h => hk (List.mem_cons_of_mem a h))
    · have hka : a ≠ k := fun he => hk (he ▸ List.mem_cons_self a t)
      have hnm : a ∉ k :: acc := by
        intro hmem
        rcases List.mem_cons.mp hmem with h | h
        · exact hka h
        · exact ha h
      rw [if_neg hnm, if_neg ha]
      exact ih k (acc ++ [a]) (fun h => hk (List.mem_cons_of_mem a h))

/-- First-occurrence deduplication of a sorted block decomposition: a
leading all-`k` block followed by a `k`-free remainder dedups to `k`
followed by the remainder's dedup. -/
theorem dedupFirst_block (k : Int) (A B : List Int)
    (hA : ∀ x ∈ A, x = k) (hk : k ∉ B) :
    dedupFirst (k :: A ++ B) = k :: dedupFirst B := by
  show (A ++ B).foldl (fun acc x => if x ∈ acc then acc else acc ++ [x]) [k] =
    k :: dedupFirst B
  rw [List.foldl_append]
  rw [dedup_foldl_const A [k] (fun x hx => by rw [hA x hx]; exact List.mem_singleton_self k)]
  exact dedup_foldl_shift B k [] hk

theorem dedup_foldl_prefix (xs : List Int) :
    ∀ acc : List Int, ∃ rest,
      xs.foldl (fun acc x => if x ∈ acc then acc else acc ++ [x]) acc = acc ++ rest := by
  induction xs with
  | nil => intro acc; exact ⟨[], (List.append_nil acc).symm⟩
  | cons a t ih =>
    intro acc
    rw [List.foldl_cons]
    by_cases ha : a ∈ acc
    · rw [if_pos ha]
      exact ih acc
    · rw [if_neg ha]
      rcases ih (acc ++ [a]) with ⟨rest, hrest⟩
      refine ⟨a :: rest, ?_⟩
      rw [hrest, List.append_assoc]
      rfl

/-- The head of a nonempty list survives as the head of its dedup. -/
theorem dedupFirst_cons (x : Int) (xs : List Int) :
    ∃ rest, dedupFirst (x :: xs) = x :: rest := by
  rcases dedup_foldl_prefix xs [x] with ⟨rest, hrest⟩
  exact ⟨rest, hrest⟩

theorem dropWhile_head_not {α : Type} (p : α → Bool) :
    ∀ (l : List α) (b : α) (t : List α), l.dropWhile p = b :: t → p b = false := by
  intro l
  induction l with
  | nil => intro b t h; exact List.noConfusion h
  | cons a l' ih =>
    intro b t h
    rw [List.dropWhile_cons] at h
    split at h
    · exact ih b t h
    · rename_i hnp
      injection h with h1 h2
      rw [Bool.not_eq_true] at hnp
      rw [← h1]
      exact hnp

/-- Overwriting `ireach` from a zipped value list leaves every other
column unchanged. -/
theorem zip_assign_rows (A : List Reach) (v : List Int) (hlen : v.length = A.length) :
    (((A.zip v).map fun p => { p.1 with ireach := p.2 }).map
      fun r => ({ r with ireach := 0 } : Reach)) =
      A.map fun r => ({ r with ireach := 0 } : Reach) := by
  rw [List.map_map]
  show (A.zip v).map ((fun r : Reach => { r with ireach := 0 }) ∘ Prod.fst) =
    A.map fun r => ({ r with ireach := 0 } : Reach)
  rw [← List.map_map, List.map_fst_zip A v (le_of_eq hlen.symm)]

/-- The assigned `ireach` values are exactly the zipped value list. -/
theorem zip_assign_vals (A : List Reach) (v : List Int) (hlen : v.length = A.length) :
    (((A.zip v).map fun p => { p.1 with ireach := p.2 }).map fun r => r.ireach) = v := by
  rw [List.map_map]
  show (A.zip v).map Prod.snd = v
  exact List.map_snd_zip A v (le_of_eq hlen)

set_option maxHeartbeats 1000000 in
/-- Kernel of the dense rewrite: zipping a sorted reach table against the
concatenated per-key ranges `1..count(key)` (keys in first-occurrence =
increasing order) assigns every segment the dense `ireach` values
`1..k` in place, changing nothing else. -/
theorem dense_assign :
    ∀ (ks : List Int) (l : List Reach),
      ((l.map fun r => r.iseg).Pairwise (· ≤ ·)) →
      dedupFirst (l.map fun r => r.iseg) = ks →
      ((ks.map fun k => rangeTo (countIseg l k)).flatten.length = l.length) ∧
      ((((l.zip (ks.map fun k => rangeTo (countIseg l k)).flatten).map
          fun p => { p.1 with ireach := p.2 }).map fun r => ({ r with ireach := 0 } : Reach)) =
        l.map fun r => ({ r with ireach := 0 } : Reach)) ∧
      (∀ s : Int,
        (((l.zip (ks.map fun k => rangeTo (countIseg l k)).flatten).map
            fun p => { p.1 with ireach := p.2 }).filter fun r => r.iseg == s).map
          (fun r => r.ireach) = rangeTo (countIseg l s)) := by
  intro ks
  induction ks with
  | nil =>
    intro l hsort hdedup
    have hl : l = [] := by
      cases l with
      | nil => rfl
      | cons a t =>
        exfalso
        have hmem : a.iseg ∈ dedupFirst ((a :: t).map fun r => r.iseg) :=
          (mem_dedupFirst _ _).mpr (List.mem_map_of_mem _ (List.mem_cons_self a t))
        rw [hdedup] at hmem
        exact List.not_mem_nil _ hmem
    subst hl
    refine ⟨rfl, rfl, ?_⟩
    intro s
    simp [countIseg, rangeTo]
  | cons k ks' ih =>
    intro l hsort hdedup
    cases l with
    | nil => simp [dedupFirst] at hdedup
    | cons r0 l' =>
      have hr0 : r0.iseg = k := by
        rcases dedupFirst_cons r0.iseg (l'.map fun r => r.iseg) with ⟨rest, hrest⟩
        rw [List.map_cons, hrest] at hdedup
        exact (List.cons.injEq _ _ _ _ ▸ hdedup).1
      have hpr0 : ((fun r : Reach => r.iseg == k) r0) = true := by
        rw [beq_iff_eq]
        exact hr0
      have hsplit : (r0 :: l').takeWhile (fun r => r.iseg == k) ++
          (r0 :: l').dropWhile (fun r => r.iseg == k) = r0 :: l' :=
        List.takeWhile_append_dropWhile (fun r => r.iseg == k) (r0 :: l')
      have hAk : ∀ r ∈ (r0 :: l').takeWhile (fun r => r.iseg == k), r.iseg = k := by
        intro r hr
        have h := List.mem_takeWhile_imp hr
        exact beq_iff_eq.mp h
      have hAne : (r0 :: l').takeWhile (fun r => r.iseg == k) =
          r0 :: l'.takeWhile (fun r => r.iseg == k) := by
        rw [List.takeWhile_cons, if_pos hpr0]
      -- the remainder block: strictly larger isegs
      have hsortAB : (((r0 :: l').takeWhile (fun r => r.iseg == k)).map
            (fun r => r.iseg) ++ ((r0 :: l').dropWhile (fun r => r.iseg == k)).map
            (fun r => r.iseg)).Pairwise (· ≤ ·) := by
        rw [← List.map_append, hsplit]
        exact hsort
      have hle : ∀ y ∈ ((r0 :: l').dropWhile (fun r => r.iseg == k)).map
          (fun r => r.iseg), k ≤ y := by
        intro y hy
        have hr0A : r0.iseg ∈ ((r0 :: l').takeWhile (fun r => r.iseg == k)).map
            (fun r => r.iseg) := by
          rw [hAne]
          exact List.mem_map_of_mem _ (List.mem_cons_self r0 _)
        have := ((List.pairwise_append.mp hsortAB).2.2) r0.iseg hr0A y hy
        rw [hr0] at this
        exact this
      have hstrict : ∀ r ∈ (r0 :: l').dropWhile (fun r => r.iseg == k), k < r.iseg := by
        intro r hr
        cases hB : (r0 :: l').dropWhile (fun r => r.iseg == k) with
        | nil => rw [hB] at hr; exact absurd hr (List.not_mem_nil r)
        | cons b0 Brest =>
          have hb0 : b0.iseg ≠ k := by
            have := dropWhile_head_not (fun r : Reach => r.iseg == k) (r0 :: l') b0 Brest hB
            exact beq_eq_false_iff_ne.mp this
          have hb0le : k ≤ b0.iseg := by
            apply hle
            rw [hB]
            exact List.mem_map_of_mem _ (List.mem_cons_self b0 Brest)
          have hb0lt : k < b0.iseg := lt_of_le_of_ne hb0le (Ne.symm hb0)
          rw [hB] at hr
          rcases List.mem_cons.mp hr with rfl | hr2
          · exact hb0lt
          · have hpw : ((b0 :: Brest).map fun r => r.iseg).Pairwise (· ≤ ·) := by
              refine List.Pairwise.sublist (List.Sublist.map _ ?_) hsort
              rw [← hB]
              exact List.dropWhile_sublist _
            have := (List.pairwise_cons.mp (by rw [List.map_cons] at hpw; exact hpw)).1
              r.iseg (List.mem_map_of_mem _ hr2)
            exact lt_of_lt_of_le hb0lt this
      have hknB : k ∉ ((r0 :: l').dropWhile (fun r => r.iseg == k)).map fun r => r.iseg := by
        intro hmem
        rcases List.mem_map.mp hmem with ⟨r, hr, hre⟩
        have := hstrict r hr
        omega
      have hdropeq : (r0 :: l').dropWhile (fun r => r.iseg == k) =
          l'.dropWhile (fun r => r.iseg == k) := by
        rw [List.dropWhile_cons, if_pos hpr0]
      have hdedB : dedupFirst (((r0 :: l').dropWhile (fun r => r.iseg == k)).map
          fun r => r.iseg) = ks' := by
        have hmapsplit : (r0 :: l').map (fun r => r.iseg) =
            k :: (l'.takeWhile (fun r => r.iseg == k)).map (fun r => r.iseg) ++
              ((r0 :: l').dropWhile (fun r => r.iseg == k)).map (fun r => r.iseg) := by
          rw [List.cons_append, hdropeq, ← List.map_append,
            List.takeWhile_append_dropWhile (fun r => r.iseg == k) l',
            List.map_cons, hr0]
        have hblock := dedupFirst_block k
          ((l'.takeWhile (fun r => r.iseg == k)).map (fun r => r.iseg))
          (((r0 :: l').dropWhile (fun r => r.iseg == k)).map (fun r => r.iseg))
          (fun x hx => by
            rcases List.mem_map.mp hx with ⟨r, hr, hre⟩
            rw [← hre]
            exact hAk r (by rw [hAne]; exact List.mem_cons_of_mem r0 hr)) hknB
        rw [hmapsplit, hblock] at hdedup
        exact (List.cons.injEq _ _ _ _ ▸ hdedup).2
      have hsortB : (((r0 :: l').dropWhile (fun r => r.iseg == k)).map
          fun r => r.iseg).Pairwise (· ≤ ·) :=
        List.Pairwise.sublist (List.Sublist.map _ (List.dropWhile_sublist _)) hsort
      rcases ih ((r0 :: l').dropWhile (fun r => r.iseg == k)) hsortB hdedB with
        ⟨ihlen, ihrows, ihfilt⟩
      -- count bookkeeping
      have hcntA : countIseg ((r0 :: l').takeWhile (fun r => r.iseg == k)) k =
          ((r0 :: l').takeWhile (fun r => r.iseg == k)).length := by
        unfold countIseg
        rw [List.countP_eq_length]
        intro r hr
        rw [beq_iff_eq]
        exact hAk r hr
      have hcntBk : countIseg ((r0 :: l').dropWhile (fun r => r.iseg == k)) k = 0 := by
        unfold countIseg
        rw [List.countP_eq_zero]
        intro r hr
        rw [beq_iff_eq]
        have := hstrict r hr
        omega
      have hcntlk : countIseg (r0 :: l') k =
          ((r0 :: l').takeWhile (fun r => r.iseg == k)).length := by
        unfold countIseg
        nth_rewrite 1 [← hsplit]
        rw [List.countP_append]
        have h1 : ((r0 :: l').takeWhile (fun r => r.iseg == k)).countP
            (fun r => r.iseg == k) =
            ((r0 :: l').takeWhile (fun r => r.iseg == k)).length := hcntA
        have h2 : ((r0 :: l').dropWhile (fun r => r.iseg == k)).countP
            (fun r => r.iseg == k) = 0 := hcntBk
        omega
      have hcntlB : ∀ s, s ≠ k → countIseg (r0 :: l') s =
          countIseg ((r0 :: l').dropWhile (fun r => r.iseg == k)) s := by
        intro s hs
        unfold countIseg
        nth_rewrite 1 [← hsplit]
        rw [List.countP_append]
        have hA0 : ((r0 :: l').takeWhile (fun r => r.iseg == k)).countP
            (fun r => r.iseg == s) = 0 := by
          rw [List.countP_eq_zero]
          intro r hr
          rw [beq_iff_eq, hAk r hr]
          exact Ne.symm hs
        omega
      have hkcong : (ks'.map fun k' => rangeTo (countIseg (r0 :: l') k')) =
          ks'.map fun k' => rangeTo (countIseg
            ((r0 :: l').dropWhile (fun r => r.iseg == k)) k') := by
        apply List.map_congr_left
        intro k' hk'
        have hk'B : k' ∈ ((r0 :: l').dropWhile (fun r => r.iseg == k)).map
            fun r => r.iseg := by
          rw [← hdedB] at hk'
          exact (mem_dedupFirst _ _).mp hk'
        have hk'ne : k' ≠ k := by
          rcases List.mem_map.mp hk'B with ⟨r, hr, hre⟩
          have := hstrict r hr
          omega
        rw [hcntlB k' hk'ne]
      have hflat : ((k :: ks').map fun k' => rangeTo (countIseg (r0 :: l') k')).flatten =
          rangeTo ((r0 :: l').takeWhile (fun r => r.iseg == k)).length ++
            ((ks'.map fun k' => rangeTo (countIseg
              ((r0 :: l').dropWhile (fun r => r.iseg == k)) k'))).flatten := by
        rw [List.map_cons, List.flatten_cons, hcntlk, hkcong]
      have hzipsplit : (r0 :: l').zip
          (((k :: ks').map fun k' => rangeTo (countIseg (r0 :: l') k')).flatten) =
          (((r0 :: l').takeWhile (fun r => r.iseg == k)).zip
            (rangeTo ((r0 :: l').takeWhile (fun r => r.iseg == k)).length)) ++
          (((r0 :: l').dropWhile (fun r => r.iseg == k)).zip
            ((ks'.map fun k' => rangeTo (countIseg
              ((r0 :: l').dropWhile (fun r => r.iseg == k)) k'))).flatten) := by
        rw [hflat]
        nth_rewrite 1 [← hsplit]
        rw [List.zip_append (by rw [rangeTo_length])]
      refine ⟨?_, ?_, ?_⟩
      · rw [hflat, List.length_append, rangeTo_length, ihlen]
        nth_rewrite 3 [← hsplit]
        rw [List.length_append]
      · rw [hzipsplit, List.map_append, List.map_append]
        rw [zip_assign_rows ((r0 :: l').takeWhile (fun r => r.iseg == k))
          (rangeTo ((r0 :: l').takeWhile (fun r => r.iseg == k)).length)
          (by rw [rangeTo_length]), ihrows]
        rw [← List.map_append, hsplit]
      · intro s
        rw [hzipsplit, List.map_append, List.filter_append, List.map_append]
        by_cases hs : s = k
        · subst hs
          have hfA : ((((r0 :: l').takeWhile (fun r => r.iseg == s)).zip
              (rangeTo ((r0 :: l').takeWhile (fun r => r.iseg == s)).length)).map
              (fun p => { p.1 with ireach := p.2 })).filter (fun r => r.iseg == s) =
              (((r0 :: l').takeWhile (fun r => r.iseg == s)).zip
                (rangeTo ((r0 :: l').takeWhile (fun r => r.iseg == s)).length)).map
                (fun p => { p.1 with ireach := p.2 }) := by
            rw [List.filter_eq_self]
            intro r hr
            rcases List.mem_map.mp hr with ⟨p, hp, hpe⟩
            rw [← hpe]
            show (p.1.iseg == s) = true
            rw [beq_iff_eq]
            exact hAk p.1 (List.of_mem_zip hp).1
          have hfB : ((((r0 :: l').dropWhile (fun r => r.iseg == s)).zip
              ((ks'.map fun k' => rangeTo (countIseg
                ((r0 :: l').dropWhile (fun r => r.iseg == s)) k'))).flatten).map
              (fun p => { p.1 with ireach := p.2 })).filter (fun r => r.iseg == s) = [] := by
            rw [List.filter_eq_nil_iff]
            intro r hr
            rcases List.mem_map.mp hr with ⟨p, hp, hpe⟩
            rw [← hpe]
            show ¬ (p.1.iseg == s) = true
            rw [beq_iff_eq]
            have := hstrict p.1 (List.of_mem_zip hp).1
            omega
          rw [hfA, hfB, List.map_nil, List.append_nil]
          rw [zip_assign_vals ((r0 :: l').takeWhile (fun r => r.iseg == s))
            (rangeTo ((r0 :: l').takeWhile (fun r => r.iseg == s)).length)
            (by rw [rangeTo_length])]
          rw [hcntlk]
        · have hfA : ((((r0 :: l').takeWhile (fun r => r.iseg == k)).zip
              (rangeTo ((r0 :: l').takeWhile (fun r => r.iseg == k)).length)).map
              (fun p => { p.1 with ireach := p.2 })).filter (fun r => r.iseg == s) = [] := by
            rw [List.filter_eq_nil_iff]
            intro r hr
            rcases List.mem_map.mp hr with ⟨p, hp, hpe⟩
            rw [← hpe]
            show ¬ (p.1.iseg == s) = true
            rw [beq_iff_eq, hAk p.1 (List.of_mem_zip hp).1]
            exact fun he => hs he.symm
          rw [hfA, List.map_nil, List.nil_append, ihfilt s, hcntlB s hs]

/-- The reassigned reach table of `reset_reaches` on consistent counts:
sorted rows zipped against the concatenated dense ranges. -/
def assignedRd (rd : List Reach) : List Reach :=
  (rd.zip ((dedupFirst (rd.map fun r => r.iseg)).map
    (fun k => rangeTo (countIseg rd k))).flatten).map fun p => { p.1 with ireach := p.2 }

theorem option_mapM_eq_map {α β : Type} {l : List α} {f : α → Option β} {g : α → β}
    (h : ∀ a ∈ l, f a = some (g a)) : l.mapM f = some (l.map g) := by
  induction l with
  | nil => rfl
  | cons a t ih =>
    rw [List.mapM_cons, h a (List.mem_cons_self a t),
      ih (fun b hb => h b (List.mem_cons_of_mem a hb))]
    rfl

/-- Claim C7 (both behaviors): `reset_reaches()` sorts by
`(iseg, ireach)`; when the period-0 `nseg` values are exactly the
distinct `iseg` values of the sorted table (counts consistent), it
completes and rewrites `ireach` so that within each segment the values
are exactly `1..k` in the pre-existing sort order, touching no other
column; when every `reach_counts` lookup succeeds but the total implied
count mismatches the table length, the column assignment's `ValueError`
is swallowed by the bare `except` and every row — in particular
`ireach` — is left unchanged (silent no-op up to sorting).  A period-0
`nseg` outside `1..max(iseg)` instead raises `KeyError` (see the
counterexample). -/
theorem reset_reaches_cases (st : SFRState)
    (h0 : (period0 st.segment_data).isEmpty = false)
    (hpos : ∀ r ∈ st.reach_data, 0 < r.iseg) :
    (((period0 st.segment_data).map fun sg => sg.nseg) =
        dedupFirst ((sortReaches st.reach_data).map fun r => r.iseg) →
      ∃ st2, reset_reaches st = .ok st2 ∧
        st2.segment_data = st.segment_data ∧
        (st2.reach_data.map fun r => ({ r with ireach := 0 } : Reach)) =
          ((sortReaches st.reach_data).map fun r => ({ r with ireach := 0 } : Reach)) ∧
        ∀ s : Int, ((st2.reach_data.filter fun r => r.iseg == s).map fun r => r.ireach) =
          rangeTo (countIseg (sortReaches st.reach_data) s)) ∧
    ((∀ sg ∈ period0 st.segment_data,
        (reachCounts (sortReaches st.reach_data) sg.nseg).isSome) →
      ((((period0 st.segment_data).map fun sg =>
          countIseg (sortReaches st.reach_data) sg.nseg).sum) ≠
        (sortReaches st.reach_data).length) →
      reset_reaches st = .ok { st with reach_data := sortReaches st.reach_data }) := by
  have hposrd : ∀ r ∈ sortReaches st.reach_data, 0 < r.iseg :=
    fun r hr => hpos r ((sortReaches_perm _).mem_iff.mp hr)
  have hneg : ((sortReaches st.reach_data).any fun r => decide (r.iseg < 0)) = false := by
    rw [List.any_eq_false]
    intro r hr
    simp only [decide_eq_true_eq]
    have := hposrd r hr
    omega
  constructor
  · intro hcons
    have hsort : ((sortReaches st.reach_data).map fun r => r.iseg).Pairwise (· ≤ ·) := by
      rw [List.pairwise_map]
      refine List.Pairwise.imp ?_ (sortReaches_sorted st.reach_data)
      intro a b hab
      rcases hab with h | h
      · exact le_of_lt h
      · exact le_of_eq h.1
    rcases dense_assign (dedupFirst ((sortReaches st.reach_data).map fun r => r.iseg))
      (sortReaches st.reach_data) hsort rfl with ⟨hlen, hrows, hfilt⟩
    have hmapm : ((period0 st.segment_data).map fun sg => sg.nseg).mapM
        (fun s => (reachCounts (sortReaches st.reach_data) s).map rangeTo) =
        some (((period0 st.segment_data).map fun sg => sg.nseg).map
          fun s => rangeTo (countIseg (sortReaches st.reach_data) s)) := by
      apply option_mapM_eq_map
      intro s hs
      have hsin : s ∈ (sortReaches st.reach_data).map fun r => r.iseg := by
        rw [hcons] at hs
        exact (mem_dedupFirst _ _).mp hs
      rcases List.mem_map.mp hsin with ⟨r, hr, hre⟩
      have h1 : 1 ≤ s := by
        have := hposrd r hr
        omega
      have h2 : s ≤ maxIseg (sortReaches st.reach_data) := by
        rw [← hre]
        exact maxIseg_ge hr
      unfold reachCounts
      rw [if_pos ⟨h1, h2⟩]
      rfl
    refine ⟨{ st with reach_data := assignedRd (sortReaches st.reach_data) }, ?_, rfl,
      ?_, ?_⟩
    · unfold reset_reaches
      dsimp only
      rw [h0]
      simp only [Bool.false_eq_true, if_false]
      rw [hneg]
      simp only [Bool.false_eq_true, if_false]
      rw [hmapm]
      dsimp only
      rw [hcons]
      rw [if_pos hlen]
      rfl
    · exact hrows
    · exact hfilt
  · intro hkeys hmis
    exact reset_reaches_mismatch_noop st h0 hneg hkeys hmis

/-- Witness for C7's consistent case: on the two-segment network the
period-0 `nseg` values `[1, 2]` are exactly the distinct sorted `iseg`
values, and the theorem delivers the dense per-segment `ireach`
rewrite. -/
theorem reset_reaches_cases_witness :
    (period0 stC1w.segment_data).isEmpty = false ∧
    (((period0 stC1w.segment_data).map fun sg => sg.nseg) =
      dedupFirst ((sortReaches stC1w.reach_data).map fun r => r.iseg)) ∧
    ∃ st2, reset_reaches stC1w = .ok st2 ∧
      st2.segment_data = stC1w.segment_data ∧
      (st2.reach_data.map fun r => ({ r with ireach := 0 } : Reach)) =
        ((sortReaches stC1w.reach_data).map fun r => ({ r with ireach := 0 } : Reach)) ∧
      ∀ s : Int, ((st2.reach_data.filter fun r => r.iseg == s).map fun r => r.ireach) =
        rangeTo (countIseg (sortReaches stC1w.reach_data) s) :=
  ⟨rfl, by decide, (reset_reaches_cases stC1w rfl (by decide)).1 (by decide)⟩

/-! ### Claim C2, revised: multi-period tables -/

theorem segIndexAssert_of_nonzero :
    ∀ (sd : List Segment) (i : Nat), (∀ s ∈ sd, (s.per == 0) = false) →
      ((withIdx sd i).all fun p => p.2.per != 0 || p.2.nseg == (p.1 : Int) + 1) = true := by
  intro sd
  induction sd with
  | nil => intro i _; rfl
  | cons a t ih =>
    intro i h
    rw [show withIdx (a :: t) i = (i, a) :: withIdx t (i + 1) from rfl, List.all_cons,
      Bool.and_eq_true]
    constructor
    · have ha := h a (List.mem_cons_self a t)
      simp [bne, ha]
    · exact ih (i + 1) (fun s hs => h s (List.mem_cons_of_mem a hs))

/-- The positional-index assert of `reset_segments` over a multi-period
table sorted by `(per, nseg)` with nonnegative periods: the period-0
rows form a prefix, so it suffices that their `nseg` column equals the
consecutive indices + 1. -/
theorem segIndexAssert_multi :
    ∀ (sd : List Segment) (i : Nat),
      List.Sorted segLE sd → (∀ s ∈ sd, 0 ≤ s.per) →
      ((period0 sd).map fun s => s.nseg) =
        (List.range (period0 sd).length).map (fun j => Int.ofNat (i + j) + 1) →
      ((withIdx sd i).all fun p => p.2.per != 0 || p.2.nseg == (p.1 : Int) + 1) = true := by
  intro sd
  induction sd with
  | nil => intro i _ _ _; rfl
  | cons a t ih =>
    intro i hsorted hper hcol
    have hsor := List.pairwise_cons.mp hsorted
    rw [show withIdx (a :: t) i = (i, a) :: withIdx t (i + 1) from rfl, List.all_cons,
      Bool.and_eq_true]
    cases hpa : a.per == 0 with
    | false =>
      have ha0 : 0 ≤ a.per := hper a (List.mem_cons_self a t)
      have hane : a.per ≠ 0 := beq_eq_false_iff_ne.mp hpa
      have hta : ∀ s ∈ t, (s.per == 0) = false := by
        intro s hs
        have h1 := hsor.1 s hs
        rw [beq_eq_false_iff_ne]
        rcases h1 with h | h
        · omega
        · omega
      constructor
      · simp [bne, hpa]
      · exact segIndexAssert_of_nonzero t (i + 1) hta
    | true =>
      simp only [period0, List.filter_cons, hpa, eq_self_iff_true, if_true] at hcol
      simp only [List.map_cons, List.length_cons] at hcol
      rw [List.range_succ_eq_map, List.map_cons, List.map_map] at hcol
      injection hcol with h1 h2
      simp only [Nat.add_zero] at h1
      constructor
      · have ha : a.nseg = (i : Int) + 1 := by
          rw [h1, Int.ofNat_eq_natCast]
        simp [ha]
      · apply ih (i + 1) hsor.2 (fun s hs => hper s (List.mem_cons_of_mem a hs))
        show ((t.filter fun s => s.per == 0).map fun s => s.nseg) =
          (List.range (t.filter fun s => s.per == 0).length).map
            (fun j => Int.ofNat ((i + 1) + j) + 1)
        rw [h2]
        apply List.map_congr_left
        intro j _
        simp only [Function.comp]
        rw [show i + Nat.succ j = (i + 1) + j by omega]

/-- Period-0 selection commutes with applying a renumbering (which
never touches `per`). -/
theorem period0_map_applySeg (m : List (Int × Int)) (l : List Segment) :
    period0 (l.map (applySeg m)) = (period0 l).map (applySeg m) := by
  induction l with
  | nil => rfl
  | cons a t ih =>
    rw [List.map_cons]
    unfold period0 at ih ⊢
    rw [List.filter_cons, List.filter_cons]
    by_cases hpa : a.per = 0
    · have hc : ((applySeg m a).per == 0) = true := by
        show (a.per == 0) = true
        rw [beq_iff_eq]
        exact hpa
      have hc2 : (a.per == 0) = true := by
        rw [beq_iff_eq]
        exact hpa
      rw [if_pos hc, if_pos hc2, List.map_cons, ih]
    · have hc : ¬ ((applySeg m a).per == 0) = true := by
        show ¬ (a.per == 0) = true
        rw [beq_iff_eq]
        exact hpa
      have hc2 : ¬ (a.per == 0) = true := by
        rw [beq_iff_eq]
        exact hpa
      rw [if_neg hc, if_neg hc2]
      exact ih

/-- Claim C2 (multi-period): on a segment table — any number of stress
periods, nonnegative `per`, positive ids, the period-0 rows carrying
each distinct id exactly once (spec invariant 5) — whose routing graph
has no cycle among strictly-positive ids and whose outseg/iseg
references resolve to known ids or nonpositive sinks,
`reset_segments()` succeeds, applying ONE old-id → new-id mapping `m`
simultaneously to `segment_data.nseg`, `segment_data.outseg`,
`reach_data.iseg` and `reach_data.outseg` (nonpositive sinks fixed);
afterwards the period-0 `nseg` values are exactly `1..N` sorted into
index order; the mapping is total and positive on the ids and
injective, and the relabeled routing graph is exactly the image of the
original graph under the mapping (an isomorphic relabeling); and each
segment's new id is smaller than its (dict-semantics) destination's new
id unless the destination is `0` or negative. -/
theorem reset_segments_renumbers_isomorphically (st : SFRState)
    (hacyc : ∀ x, ¬ Relation.TransGen (SegStep (segZip st) (segIds st)) x x)
    (hpos : ∀ s ∈ st.segment_data, 0 < s.nseg)
    (hnd0 : ((period0 st.segment_data).map fun s => s.nseg).Nodup)
    (hcov : ((period0 st.segment_data).map fun s => s.nseg).Perm (segIds st))
    (hpernn : ∀ s ∈ st.segment_data, 0 ≤ s.per)
    (hout : ∀ s ∈ st.segment_data, s.outseg ≤ 0 ∨ s.outseg ∈ segIds st)
    (hri : ∀ r ∈ st.reach_data, r.iseg ∈ segIds st)
    (hro : ∀ r ∈ st.reach_data, r.outseg ≤ 0 ∨ r.outseg ∈ segIds st) :
    ∃ m st',
      reset_segments st = .ok st' ∧
      st'.segment_data = sortSegments (st.segment_data.map (applySeg m)) ∧
      st'.reach_data = sortReaches (st.reach_data.map (applyReach m)) ∧
      ((period0 st'.segment_data).map fun s => s.nseg) =
        rangeTo (period0 st.segment_data).length ∧
      (∀ x ∈ segIds st, ∃ n, dget m x = some n ∧ 0 < n) ∧
      (∀ x y nx ny, dget m x = some nx → dget m y = some ny → nx = ny → x = y) ∧
      ((st'.segment_data.map fun s => s.nseg).zip
          (st'.segment_data.map fun s => s.outseg)).Perm
        ((segZip st).map fun e => ((applyR m e.1).getD 0, (applyR m e.2).getD 0)) ∧
      (∀ x y, x ∈ segIds st → dget (segZip st) x = some y → 0 < y →
        ∃ a b, dget m x = some a ∧ dget m y = some b ∧ a < b) := by
  have hposn : ∀ x ∈ st.segment_data.map fun s => s.nseg, 0 < x := by
    intro x hx
    rcases List.mem_map.mp hx with ⟨s, hs, rfl⟩
    exact hpos s hs
  rcases renumber_segments_ok hacyc hposn with ⟨m, hren, hkeys, hvals, hmono⟩
  have htotal : ∀ x ∈ segIds st, ∃ n, dget m x = some n ∧ 0 < n :=
    renum_total hkeys hvals
  have hvnd := renum_vals_nodup hvals
  have hinj := renum_inj hvnd
  have hpids : ∀ x ∈ segIds st, 0 < x :=
    fun x hx => hposn x ((mem_dedupFirst _ _).mp hx)
  have happ : ∀ x, x ≤ 0 ∨ x ∈ segIds st → ∃ n, applyR m x = some n := by
    intro x hx
    rcases hx with h | h
    · exact ⟨x, by unfold applyR; rw [if_pos h]⟩
    · rcases htotal x h with ⟨n, hn, _⟩
      refine ⟨n, ?_⟩
      unfold applyR
      rw [if_neg (by have := hpids x h; omega), hn]
  have hsegrow : ∀ s ∈ st.segment_data,
      (match applyR m s.nseg, applyR m s.outseg with
        | some a, some b => Except.ok ({ s with nseg := a, outseg := b } : Segment)
        | _, _ => Except.error Err.keyError) = .ok (applySeg m s) := by
    intro s hs
    have hin : s.nseg ∈ segIds st :=
      (mem_dedupFirst _ _).mpr (List.mem_map_of_mem (fun s => s.nseg) hs)
    rcases happ s.nseg (Or.inr hin) with ⟨na, ha⟩
    rcases happ s.outseg (hout s hs) with ⟨nb, hb⟩
    unfold applySeg
    rw [ha, hb]
    rfl
  have hreachrow : ∀ r ∈ st.reach_data,
      (match applyR m r.iseg, applyR m r.outseg with
        | some a, some b => Except.ok ({ r with iseg := a, outseg := b } : Reach)
        | _, _ => Except.error Err.keyError) = .ok (applyReach m r) := by
    intro r hr
    rcases happ r.iseg (Or.inr (hri r hr)) with ⟨na, ha⟩
    rcases happ r.outseg (hro r hr) with ⟨nb, hb⟩
    unfold applyReach
    rw [ha, hb]
    rfl
  have hsd := mapM_ok_of_forall hsegrow
  have hrd := mapM_ok_of_forall hreachrow
  have hN : m.length = (period0 st.segment_data).length := by
    have h1 := hkeys.length_eq
    have h2 := hcov.length_eq
    rw [List.length_map] at h1 h2
    rw [h1]
    exact h2.symm
  have hvals' : m.map Prod.snd = rangeTo (period0 st.segment_data).length := by
    rw [hvals, rangeTo, hN]
    exact List.map_congr_left (fun i _ => add_comm 1 (Int.ofNat i))
  have hknd : (m.map Prod.fst).Nodup :=
    hkeys.nodup_iff.mpr (nodup_dedupFirst _)
  have hcomm : period0 (st.segment_data.map (applySeg m)) =
      (period0 st.segment_data).map (applySeg m) :=
    period0_map_applySeg m st.segment_data
  have hposn0 : ∀ x ∈ (period0 st.segment_data).map fun s => s.nseg, 0 < x := by
    intro x hx
    rcases List.mem_map.mp hx with ⟨s, hs, rfl⟩
    exact hpos s (List.mem_filter.mp hs).1
  have hcol0 : ((period0 st.segment_data).map (applySeg m)).map (fun s => s.nseg)
      = ((period0 st.segment_data).map fun s => s.nseg).map
        (fun x => (applyR m x).getD 0) := by
    rw [List.map_map, List.map_map]
    rfl
  have hcol1 : ((period0 st.segment_data).map fun s => s.nseg).map
        (fun x => (applyR m x).getD 0)
      = ((period0 st.segment_data).map fun s => s.nseg).map
        (fun x => (dget m x).getD 0) :=
    List.map_congr_left (fun x hx => by
      unfold applyR
      rw [if_neg (by have := hposn0 x hx; omega)])
  have hcolperm : (((period0 st.segment_data).map fun s => s.nseg).map
      (fun x => (dget m x).getD 0)).Perm (m.map Prod.snd) := by
    have hfix : ((period0 st.segment_data).map fun s => s.nseg).Perm (m.map Prod.fst) :=
      hcov.trans hkeys.symm
    have h2 := hfix.map (fun x => (dget m x).getD 0)
    rw [dget_values hknd] at h2
    exact h2
  have hpernn' : ∀ s ∈ sortSegments (st.segment_data.map (applySeg m)), 0 ≤ s.per := by
    intro s hs
    rcases List.mem_map.mp ((sortSegments_perm _).mem_iff.mp hs) with ⟨s0, hs0, hss⟩
    rw [← hss]
    exact hpernn s0 hs0
  have hcols : ((period0 (sortSegments (st.segment_data.map (applySeg m)))).map
      fun s => s.nseg) = rangeTo (period0 st.segment_data).length := by
    apply sorted_col_eq_range
    · exact (sortSegments_sorted _).sublist (List.filter_sublist _)
    · intro s hs
      exact beq_iff_eq.mp (List.mem_filter.mp hs).2
    · refine (((sortSegments_perm _).filter _).map _).trans ?_
      have hstep : ((period0 (st.segment_data.map (applySeg m))).map fun s => s.nseg).Perm
          (rangeTo (period0 st.segment_data).length) := by
        rw [hcomm, hcol0, hcol1, ← hvals']
        exact hcolperm
      exact hstep
  have hlen0 : (period0 (sortSegments (st.segment_data.map (applySeg m)))).length
      = (period0 st.segment_data).length := by
    have h1 := congrArg List.length hcols
    rw [List.length_map, rangeTo_length] at h1
    exact h1
  have hassert : segIndexAssert (sortSegments (st.segment_data.map (applySeg m))) = true := by
    apply segIndexAssert_multi _ 0 (sortSegments_sorted _) hpernn'
    rw [hcols, hlen0, rangeTo]
    exact List.map_congr_left (fun j _ => by rw [Nat.zero_add])
  refine ⟨m, { st with
      segment_data := sortSegments (st.segment_data.map (applySeg m)),
      reach_data := sortReaches (st.reach_data.map (applyReach m)) },
    ?_, rfl, rfl, hcols, htotal, hinj, ?_, ?_⟩
  · unfold reset_segments
    rw [hren, except_bind_ok_arg]
    dsimp only
    rw [hsd, except_bind_ok_arg]
    try dsimp only
    rw [hrd, except_bind_ok_arg]
    try dsimp only
    rw [if_pos hassert]
  · rw [zip_map_two]
    refine ((sortSegments_perm _).map _).trans ?_
    rw [List.map_map]
    unfold segZip
    rw [zip_map_two, List.map_map]
    exact List.Perm.refl _
  · intro x y hx hdg hy
    rcases htotal x hx with ⟨a, ha, _⟩
    have hrow : (x, y) ∈ segZip st := dget_mem hdg
    have hrow2 : ∃ s ∈ st.segment_data, s.nseg = x ∧ s.outseg = y := by
      unfold segZip at hrow
      rw [zip_map_two] at hrow
      rcases List.mem_map.mp hrow with ⟨s, hs, he⟩
      exact ⟨s, hs, congrArg Prod.fst he, congrArg Prod.snd he⟩
    rcases hrow2 with ⟨s, hs, hsx, hsy⟩
    have hyin : y ∈ segIds st := by
      rcases hout s hs with h | h
      · rw [hsy] at h
        omega
      · rw [← hsy]
        exact h
    rcases htotal y hyin with ⟨b, hb, _⟩
    refine ⟨a, b, ha, hb, ?_⟩
    have hedge : dstOf (segZip st) x = y := by
      unfold dstOf
      rw [hdg]
      rfl
    by_cases hxy : x = y
    · exfalso
      apply hacyc x
      exact Relation.TransGen.single ⟨hx, hpids x hx, by rw [hedge]; exact hxy.symm⟩
    · exact hmono x y a b (dget_mem ha) (dget_mem hb) hedge hxy

/-- A TWO-stress-period segment table numbered `5 → 3 → outlet` in both
periods (invalid numbering, valid topology), with one reach per
segment. -/
def stC2w : SFRState :=
  { reach_data := [mkR 1 5 1 1 0 0 1, mkR 2 3 1 2 0 0 1],
    segment_data := [mkS 5 3, mkS 3 0,
      { per := 1, nseg := 5, outseg := 3 }, { per := 1, nseg := 3, outseg := 0 }] }

/-- Witness for C2: on the two-period `5 → 3` table the theorem applies
(the rank `5 ↦ 0, 3 ↦ 1` certifies acyclicity) and `reset_segments`
renumbers both periods to `1 → 2` isomorphically, with the period-0
`nseg` column exactly `[1, 2]`. -/
theorem reset_segments_renumbers_isomorphically_witness :
    ∃ m st',
      reset_segments stC2w = .ok st' ∧
      st'.segment_data = sortSegments (stC2w.segment_data.map (applySeg m)) ∧
      st'.reach_data = sortReaches (stC2w.reach_data.map (applyReach m)) ∧
      ((period0 st'.segment_data).map fun s => s.nseg) =
        rangeTo (period0 stC2w.segment_data).length ∧
      (∀ x ∈ segIds stC2w, ∃ n, dget m x = some n ∧ 0 < n) ∧
      (∀ x y nx ny, dget m x = some nx → dget m y = some ny → nx = ny → x = y) ∧
      ((st'.segment_data.map fun s => s.nseg).zip
          (st'.segment_data.map fun s => s.outseg)).Perm
        ((segZip stC2w).map fun e => ((applyR m e.1).getD 0, (applyR m e.2).getD 0)) ∧
      (∀ x y, x ∈ segIds stC2w → dget (segZip stC2w) x = some y → 0 < y →
        ∃ a b, dget m x = some a ∧ dget m y = some b ∧ a < b) :=
  reset_segments_renumbers_isomorphically stC2w
    (by
      apply acyclic_of_rank (fun x => if x = 5 then 0 else if x = 3 then 1 else 2)
      intro x y hs
      rcases hs with ⟨hx, _, hd⟩
      rw [show segIds stC2w = [5, 3] from rfl] at hx
      rw [← hd]
      rcases (by simpa using hx : x = 5 ∨ x = 3) with rfl | rfl
      · decide
      · decide)
    (by decide) (by decide) (by decide) (by decide) (by decide) (by decide) (by decide)
